import Mathlib

/-!
# Verification of `alembic_postgresql_enum/get_enum_data.py` and its diff engine

Shallow embedding of the repository's two source files:

* `src/alembic_postgresql_enum/get_enum_data.py` — the live-schema reader
  (`get_defined_enums`), the declared-schema reader (`get_declared_enums`)
  and the value pipeline (`get_enum_values`).  These are translated below
  directly from the Python source.
* The reconciliation / diff engine (`CreateEnumOp`, `DropEnumOp`, the
  comparison hook) is not part of the source files under review — only its
  tests and the specification describe it — so it is modelled from the
  spec; every such definition carries a doc comment starting with
  `Modelled from the spec:`.

Python dictionaries are embedded as association lists in insertion order,
with key update overwriting in place, which is exactly CPython's observable
dict behaviour.  Machine-level concerns (hashes, object addresses) are
modelled by an explicit `typeId : Nat` standing for object identity.
-/

namespace AlembicEnum

/-! ## Python dict model -/

/-- Python dict assignment `m[k] = v`: overwrite in place if the key is
present (keeping its position), otherwise append at the end. -/
def dictInsert {α : Type} (m : List (String × α)) (k : String) (v : α) :
    List (String × α) :=
  match m with
  | [] => [(k, v)]
  | (k0, v0) :: rest =>
      if k0 = k then (k, v) :: rest else (k0, v0) :: dictInsert rest k v

/-- Building a Python dict from a sequence of key/value pairs (as a dict
comprehension does): later pairs overwrite earlier ones. -/
def dictOf {α : Type} (l : List (String × α)) : List (String × α) :=
  l.foldl (fun m p => dictInsert m p.1 p.2) []

/-- Python dict lookup `m[k]` / `m.get(k)`. -/
def dictLookup {α : Type} (m : List (String × α)) (k : String) : Option α :=
  match m with
  | [] => none
  | (k0, v) :: rest => if k0 = k then some v else dictLookup rest k

/-- The association list has pairwise distinct keys — the invariant every
Python dict satisfies by construction. -/
def keysNodup {α : Type} (m : List (String × α)) : Prop :=
  (m.map Prod.fst).Nodup

instance {α : Type} (m : List (String × α)) : Decidable (keysNodup m) := by
  unfold keysNodup; infer_instance

/-! ## Data model of `get_enum_data.py` -/

/-- `EnumToTable` dataclass (get_enum_data.py lines 12–16). -/
structure EnumToTable where
  table_name : String
  column_name : String
  enum_name : String
deriving DecidableEq, Repr

/-- `EnumNamesToValues = Dict[str, Tuple[str]]` (line 19). -/
abbrev EnumNamesToValues := List (String × List String)

/-- `DeclaredEnumValues` dataclass (lines 22–25); `table_definitions`
defaults to `None`, hence the `Option`. -/
structure DeclaredEnumValues where
  enum_definitions : EnumNamesToValues
  table_definitions : Option (List EnumToTable) := none

/-- A SQLAlchemy column type as observed by `get_declared_enums`:

* `enumType`: a plain `sqlalchemy.Enum`, with its `name`, `schema`
  (possibly `None`) and declared `enums` tuple;
* `decoratedEnum`: a `sqlalchemy.types.TypeDecorator` whose `impl` is an
  `Enum`.  `TypeDecorator.__getattr__` proxies unknown attributes to
  `impl`, so `name`, `schema` and `enums` read through to the wrapped
  enum; `process_bind_param` and the result processor obtained from
  `impl.result_processor(dialect, enum_type)` are modelled with the
  dialect already applied, as `String → String` processors;
* `nonEnumWithSchema` / `nonEnumNoSchema`: any other column type, with or
  without a `schema` attribute.

`typeId` models CPython object identity, which is what `set.add` uses for
`sqlalchemy` type objects (they do not override `__eq__`/`__hash__`). -/
inductive ColumnType where
  | enumType (typeId : Nat) (name : String) (schema : Option String)
      (enums : List String) : ColumnType
  | decoratedEnum (typeId : Nat) (name : String) (schema : Option String)
      (enums : List String) (process_bind_param : String → String)
      (impl_result_processor : String → String) : ColumnType
  | nonEnumWithSchema (typeId : Nat) (schema : Option String) : ColumnType
  | nonEnumNoSchema (typeId : Nat) : ColumnType

/-- Object identity of the type object. -/
def ColumnType.typeId : ColumnType → Nat
  | .enumType i _ _ _ => i
  | .decoratedEnum i _ _ _ _ _ => i
  | .nonEnumWithSchema i _ => i
  | .nonEnumNoSchema i => i

/-- `hasattr(column.type, 'schema')`. -/
def ColumnType.hasSchemaAttr : ColumnType → Bool
  | .enumType _ _ _ _ => true
  | .decoratedEnum _ _ _ _ _ _ => true
  | .nonEnumWithSchema _ _ => true
  | .nonEnumNoSchema _ => false

/-- `column.type.schema` (proxied to `impl` for a `TypeDecorator`). -/
def ColumnType.schemaAttr : ColumnType → Option String
  | .enumType _ _ s _ => s
  | .decoratedEnum _ _ s _ _ _ => s
  | .nonEnumWithSchema _ s => s
  | .nonEnumNoSchema _ => none

/-- `isinstance(column.type, sqlalchemy.Enum)`. -/
def ColumnType.isEnum : ColumnType → Bool
  | .enumType _ _ _ _ => true
  | _ => false

/-- `isinstance(getattr(column.type, 'impl', None), sqlalchemy.Enum)`. -/
def ColumnType.implIsEnum : ColumnType → Bool
  | .decoratedEnum _ _ _ _ _ _ => true
  | _ => false

/-- `column.type.name` (proxied for a decorator; never read on non-enum
types by the source, so those arms return a junk value). -/
def ColumnType.typeName : ColumnType → String
  | .enumType _ n _ _ => n
  | .decoratedEnum _ n _ _ _ _ => n
  | _ => ""

/-- A table column: `column.name` and `column.type`. -/
structure Column where
  name : String
  type : ColumnType

/-- A declared table: `table.name` and `table.columns`. -/
structure Table where
  name : String
  columns : List Column

/-- The slice of `sqlalchemy.MetaData` the reader walks:
`metadata.tables.values()` in declaration order. -/
structure MetaData where
  tables : List Table

/-- Python's `x or default` on an optional string: `None` and the empty
string are falsy, so both fall back to `default`. -/
def pyOrStr (x : Option String) (default : String) : String :=
  match x with
  | none => default
  | some s => if s = "" then default else s

/-! ## `get_enum_values` (source lines 59–70) -/

/-- `get_enum_values(enum_type, dialect)`: for a `TypeDecorator`, each
declared value runs through `impl.result_processor(dialect, enum_type)`
and then `process_bind_param(…, dialect)`; otherwise the identity
processor is used on `enum_type.enums`.  (The dialect is pre-applied in
the processor fields of `ColumnType.decoratedEnum`; the non-enum arms are
never reached by the source, which only calls this on collected enum
types.) -/
def get_enum_values (enum_type : ColumnType) : List String :=
  match enum_type with
  | .decoratedEnum _ _ _ enums pbp rp => enums.map (fun value => pbp (rp value))
  | .enumType _ _ _ enums => enums
  | _ => []

/-! ## `get_declared_enums` (source lines 73–123) -/

/-- `types.add(column.type)` on a Python `set` of type objects: adds the
object unless one with the same identity is already present. -/
def setAdd (types : List ColumnType) (t : ColumnType) : List ColumnType :=
  if types.any (fun u => u.typeId = t.typeId) then types else types ++ [t]

/-- One iteration of the column loop of `get_declared_enums`
(lines 96–116): skip when the type has no `schema` attribute; skip when
`schema != (column.type.schema or default_schema)`; collect the type and
append an `EnumToTable` record when the type is an `Enum` or its `impl`
is; otherwise skip. -/
def scanColumn (schema default_schema table_name : String)
    (acc : List ColumnType × List EnumToTable) (c : Column) :
    List ColumnType × List EnumToTable :=
  if ¬ c.type.hasSchemaAttr then acc
  else if schema ≠ pyOrStr c.type.schemaAttr default_schema then acc
  else if c.type.isEnum || c.type.implIsEnum then
    (setAdd acc.1 c.type, acc.2 ++ [⟨table_name, c.name, c.type.typeName⟩])
  else acc

/-- The `(table, column)` pairs visited by the two nested loops
`for table in metadata.tables.values(): for column in table.columns:`,
flattened in iteration order. -/
def tableColumnPairs (metadata : MetaData) : List (String × Column) :=
  metadata.tables.foldr (fun t acc => t.columns.map (fun c => (t.name, c)) ++ acc) []

/-- The loop of `get_declared_enums`, producing the `types` set and the
`table_definitions` list. -/
def scanMetadata (metadata : MetaData) (schema default_schema : String) :
    List ColumnType × List EnumToTable :=
  (tableColumnPairs metadata).foldl
    (fun acc p => scanColumn schema default_schema p.1 acc p.2) ([], [])

/-- `get_declared_enums(metadata, schema, default_schema, dialect)`
(lines 73–123): scan all columns, then build
`enum_definitions = {t.name: get_enum_values(t, dialect) for t in types}`
(a dict comprehension, so duplicate names overwrite) and return the
collected `table_definitions`. -/
def get_declared_enums (metadata : MetaData) (schema default_schema : String) :
    DeclaredEnumValues :=
  let scanned := scanMetadata metadata schema default_schema
  { enum_definitions :=
      dictOf (scanned.1.map (fun t => (t.typeName, get_enum_values t)))
    table_definitions := some scanned.2 }

/-! ## `get_defined_enums` (source lines 28–56) and the catalog model -/

/-- A `pg_type` row, with `format_name` standing for the result of
`pg_catalog.format_type(t.oid, NULL)`. -/
structure PgType where
  oid : Nat
  typtype : Char
  typnamespace : Nat
  format_name : String

/-- A `pg_namespace` row. -/
structure PgNamespace where
  oid : Nat
  nspname : String

/-- A `pg_enum` row.  `enumsortorder` (a real in PostgreSQL, a `Nat` here,
which suffices since only its ordering matters) is the ordinal position of
the label; it is NOT read by the source's query. -/
structure PgEnumRow where
  enumtypid : Nat
  enumsortorder : Nat
  enumlabel : String

/-- The PostgreSQL catalog as visible to the source's query.  The list
order of `pg_enum` is the row order an unordered scan returns (SQL gives
no ordering guarantee for a `SELECT` without `ORDER BY`; after
`ALTER TYPE … ADD VALUE … BEFORE …` the newly appended row has a smaller
`enumsortorder` than rows before it). -/
structure Catalog where
  pg_type : List PgType
  pg_namespace : List PgNamespace
  pg_enum : List PgEnumRow

/-- `get_defined_enums(conn, schema)` (lines 28–56): the embedded SQL
selects `format_type(t.oid, NULL)` and
`ARRAY(SELECT enumlabel FROM pg_enum WHERE enumtypid = t.oid)` — note the
subquery has no `ORDER BY` — from `pg_type t LEFT JOIN pg_namespace n ON
n.oid = t.typnamespace WHERE t.typtype = 'e' AND n.nspname = :schema`
(the `WHERE` on `n.nspname` makes the join effectively inner), and the
result is collected into a dict `{r[0]: tuple(r[1]) for r in rows}`. -/
def get_defined_enums (cat : Catalog) (schema : String) : EnumNamesToValues :=
  dictOf
    (((cat.pg_type.filter (fun t => t.typtype = 'e')).map (fun t =>
        (cat.pg_namespace.filter
            (fun n => n.oid = t.typnamespace ∧ n.nspname = schema)).map
          (fun _ =>
            (t.format_name,
             (cat.pg_enum.filter (fun e => e.enumtypid = t.oid)).map
               PgEnumRow.enumlabel)))).flatten)

/-- Insertion step of a stable insertion sort on `enumsortorder`. -/
def insertSorted (e : PgEnumRow) : List PgEnumRow → List PgEnumRow
  | [] => [e]
  | a :: l =>
      if e.enumsortorder ≤ a.enumsortorder then e :: a :: l
      else a :: insertSorted e l

/-- Stable insertion sort of catalog rows by `enumsortorder`. -/
def sortBySortorder (l : List PgEnumRow) : List PgEnumRow :=
  l.foldr insertSorted []

/-- The labels of the enum type `oid` in their declared ordinal order,
i.e. sorted by `enumsortorder` — the spec's notion of value order ("the
declared ordinal order … which determines comparison semantics").  This
definition follows the spec's words, for comparison with
`get_defined_enums`. -/
def ordinalLabels (cat : Catalog) (oid : Nat) : List String :=
  (sortBySortorder (cat.pg_enum.filter (fun e => e.enumtypid = oid))).map
    PgEnumRow.enumlabel

/-- The spec's definition of a column type's resident schema: "the explicit
schema attribute, or the default schema when that attribute is None".
This definition follows the spec's words, for comparison with the
source's `column.type.schema or default_schema` (see `pyOrStr`). -/
def residentSchemaSpec (schemaAttr : Option String) (default_schema : String) :
    String :=
  match schemaAttr with
  | none => default_schema
  | some s => s

/-- The metadata with every column whose type lacks a `schema` attribute
removed. -/
def dropNoSchemaColumns (md : MetaData) : MetaData :=
  ⟨md.tables.map (fun t =>
    ⟨t.name, t.columns.filter (fun c => c.type.hasSchemaAttr)⟩)⟩

/-- All column type objects of a metadata, in scan order. -/
def allColumnTypes (md : MetaData) : List ColumnType :=
  (tableColumnPairs md).map (fun p => p.2.type)

/-! ## The reconciliation / diff engine

The engine itself (the `CreateEnumOp` / `DropEnumOp` operations and the
comparison hook) is not among the source files under review — only its
tests (`src/tests/test_enum_creation.py`) and the specification describe
it — so the definitions below are modelled from the spec (§3 Operation,
§4.3 Reconciliation / Diff Engine, §8 scenarios). -/

/-- Modelled from the spec: the abstract migration operations (§3), a
tagged variant carrying enum name, schema name and the value tuples needed
to apply and to invert the change.  Value-level alters carry the value and
its position in the target ordering. -/
inductive EnumOp where
  | createEnum (name schema : String) (values : List String) : EnumOp
  | dropEnum (name schema : String) (values : List String) : EnumOp
  | alterEnumAddValue (name schema value : String) (pos : Nat) : EnumOp
  | alterEnumDropValue (name schema value : String) (pos : Nat) : EnumOp
deriving DecidableEq, Repr

/-- The enum name an operation is about. -/
def EnumOp.opName : EnumOp → String
  | .createEnum n _ _ => n
  | .dropEnum n _ _ => n
  | .alterEnumAddValue n _ _ _ => n
  | .alterEnumDropValue n _ _ _ => n

/-- Is this a `CreateEnum` for the given name? -/
def EnumOp.isCreateNamed (n : String) : EnumOp → Bool
  | .createEnum m _ _ => m = n
  | _ => false

/-- Is this a `DropEnum` for the given name? -/
def EnumOp.isDropNamed (n : String) : EnumOp → Bool
  | .dropEnum m _ _ => m = n
  | _ => false

/-- Is this an in-place value-drop operation? -/
def EnumOp.isAlterDropValue : EnumOp → Bool
  | .alterEnumDropValue _ _ _ _ => true
  | _ => false

/-- `isSublist l t`: `l` is an order-preserving sublist of `t` (the
"new trailing/interior values only" shape of §4.3.2: the live tuple is
obtained from the declared tuple by deleting some values). -/
def isSublist : List String → List String → Bool
  | [], _ => true
  | _ :: _, [] => false
  | a :: as, b :: bs => if a = b then isSublist as bs else isSublist (a :: as) bs

/-- Modelled from the spec: the positions of the values to add (§4.3.2,
"emit `AlterEnumAddValue` per new value, each positioned relative to its
neighbor in the target ordering").  Walking the target tuple against the
live tuple, every target value missing from the live tuple is emitted with
its absolute position in the evolving tuple; `pos` is the number of values
already in place before the walk. -/
def computeInsertions (live target : List String) (pos : Nat) :
    List (String × Nat) :=
  match live, target with
  | _, [] => []
  | [], d :: ds => (d, pos) :: computeInsertions [] ds (pos + 1)
  | a :: as, d :: ds =>
      if d = a then computeInsertions as ds (pos + 1)
      else (d, pos) :: computeInsertions (a :: as) ds (pos + 1)

/-- Modelled from the spec: the value-level diff for one enum present on
both sides (§4.3.2).  Equal tuples need nothing; when the live tuple is an
order-preserving sublist of the declared tuple (additions only), one
`AlterEnumAddValue` per new value is emitted; otherwise (values removed,
or removed and added, or reordered) the conservative structural
replacement is emitted: `DropEnum` with the live values followed by
`CreateEnum` with the declared values. -/
def changedEnumOps (schema name : String) (lv dv : List String) : List EnumOp :=
  if lv = dv then []
  else if isSublist lv dv then
    (computeInsertions lv dv 0).map
      (fun q => .alterEnumAddValue name schema q.1 q.2)
  else [.dropEnum name schema lv, .createEnum name schema dv]

/-- Modelled from the spec: the value-level diff over all enums present on
both sides, in live-snapshot order. -/
def changedOps (schema : String) (live declared : EnumNamesToValues) :
    List EnumOp :=
  live.foldr
    (fun p acc =>
      match dictLookup declared p.1 with
      | some dv => changedEnumOps schema p.1 p.2 dv ++ acc
      | none => acc)
    []

/-- Modelled from the spec: `CreateEnum` for every enum present only in
the declared snapshot (§4.3.1), carrying the declared values. -/
def createOps (schema : String) (live declared : EnumNamesToValues) :
    List EnumOp :=
  (declared.filter (fun p => (dictLookup live p.1).isNone)).map
    (fun p => .createEnum p.1 schema p.2)

/-- Modelled from the spec: `DropEnum` for every enum present only in the
live snapshot (§4.3.1), carrying the live values. -/
def dropOps (schema : String) (live declared : EnumNamesToValues) :
    List EnumOp :=
  (live.filter (fun p => (dictLookup declared p.1).isNone)).map
    (fun p => .dropEnum p.1 schema p.2)

/-- Modelled from the spec: the full enum-operation sequence of one diff
run — value-level alters and recreation pairs for common enums, then
creates for declared-only enums, then drops for live-only enums. -/
def enumDiff (schema : String) (live declared : EnumNamesToValues) :
    List EnumOp :=
  changedOps schema live declared ++ createOps schema live declared ++
    dropOps schema live declared

/-- A column operation supplied by the surrounding migration-diff pipeline
(an external collaborator), recording which enum the column references. -/
inductive ColumnOp where
  | addColumn (table col enumName : String) : ColumnOp
  | dropColumn (table col enumName : String) : ColumnOp
deriving DecidableEq, Repr

/-- Does this column operation reference the given enum? -/
def ColumnOp.references (n : String) : ColumnOp → Bool
  | .addColumn _ _ m => m = n
  | .dropColumn _ _ m => m = n

/-- Is this a column-drop operation referencing the given enum? -/
def ColumnOp.isDropRef (n : String) : ColumnOp → Bool
  | .dropColumn _ _ m => m = n
  | _ => false

/-- An element of the final migration sequence: an enum operation of the
engine or a column operation of the surrounding pipeline. -/
inductive MigrationOp where
  | enumOp (op : EnumOp) : MigrationOp
  | columnOp (op : ColumnOp) : MigrationOp
deriving DecidableEq, Repr

/-- Does this migration element reference the enum via a column op? -/
def MigrationOp.refsColumn (n : String) : MigrationOp → Bool
  | .columnOp op => op.references n
  | .enumOp _ => false

/-- Is this migration element a `CreateEnum` for the given name? -/
def MigrationOp.isCreateNamed (n : String) : MigrationOp → Bool
  | .enumOp op => op.isCreateNamed n
  | .columnOp _ => false

/-- Is this migration element a `DropEnum` for the given name? -/
def MigrationOp.isDropNamed (n : String) : MigrationOp → Bool
  | .enumOp op => op.isDropNamed n
  | .columnOp _ => false

/-- Is this a column-drop referencing the enum? -/
def MigrationOp.isColDropRef (n : String) : MigrationOp → Bool
  | .columnOp op => op.isDropRef n
  | .enumOp _ => false

/-- Modelled from the spec: the sequencing rule (§4.3.3) — the engine
inserts its creates (and value-level alters / recreation pairs) before the
column-operation batch supplied by the surrounding pipeline, and its drops
of live-only enums after it. -/
def reconcile (schema : String) (live declared : EnumNamesToValues)
    (columnOps : List ColumnOp) : List MigrationOp :=
  (changedOps schema live declared ++ createOps schema live declared).map
      MigrationOp.enumOp ++
    columnOps.map MigrationOp.columnOp ++
    (dropOps schema live declared).map MigrationOp.enumOp

/-! ## Applying operations and inverses (spec §4.3.4, §8 round-trip) -/

/-- Insert a value at a position of a tuple (clamped to the end). -/
def insertPos : List String → Nat → String → List String
  | l, 0, v => v :: l
  | [], _ + 1, v => [v]
  | a :: l, p + 1, v => a :: insertPos l p v

/-- Remove the value at a position of a tuple (no-op past the end). -/
def removePos : List String → Nat → List String
  | [], _ => []
  | _ :: l, 0 => l
  | a :: l, p + 1 => a :: removePos l p

/-- Modelled from the spec: the effect of one operation on an enum
snapshot (a name → value-tuple mapping): `CreateEnum` defines the enum,
`DropEnum` removes it, the value-level alters edit its tuple in place. -/
def applyOp (m : EnumNamesToValues) : EnumOp → EnumNamesToValues
  | .createEnum n _ vs => m ++ [(n, vs)]
  | .dropEnum n _ _ => m.filter (fun p => p.1 ≠ n)
  | .alterEnumAddValue n _ v pos =>
      m.map (fun p => if p.1 = n then (p.1, insertPos p.2 pos v) else p)
  | .alterEnumDropValue n _ _ pos =>
      m.map (fun p => if p.1 = n then (p.1, removePos p.2 pos) else p)

/-- Apply a sequence of operations in order. -/
def applySeq (ops : List EnumOp) (m : EnumNamesToValues) : EnumNamesToValues :=
  ops.foldl applyOp m

/-- Modelled from the spec: the exact inverse of each operation (§4.3.4):
`CreateEnum(name, schema, values)` inverses to
`DropEnum(name, schema, values)` and vice versa; a value-add inverses to a
value-drop at the same position and vice versa. -/
def inverseOp : EnumOp → EnumOp
  | .createEnum n s vs => .dropEnum n s vs
  | .dropEnum n s vs => .createEnum n s vs
  | .alterEnumAddValue n s v pos => .alterEnumDropValue n s v pos
  | .alterEnumDropValue n s v pos => .alterEnumAddValue n s v pos

/-- The downgrade sequence: each operation inverted, in reverse order. -/
def inverseSeq (ops : List EnumOp) : List EnumOp :=
  (ops.map inverseOp).reverse

/-- The lookup function of a snapshot after one operation, expressed in
terms of the lookup function before it. -/
def lookupAfter (f : String → Option (List String)) (op : EnumOp)
    (k : String) : Option (List String) :=
  match op with
  | .createEnum n _ vs =>
      match f k with
      | some v => some v
      | none => if k = n then some vs else none
  | .dropEnum n _ _ => if k = n then none else f k
  | .alterEnumAddValue n _ v pos =>
      if k = n then (f n).map (fun t => insertPos t pos v) else f k
  | .alterEnumDropValue n _ _ pos =>
      if k = n then (f n).map (fun t => removePos t pos) else f k

/-- The precondition under which an operation is exactly inverted by its
inverse: a create needs the name fresh, a drop needs the name bound to
exactly the carried values, a value-add needs the enum present and the
position in range (a value-drop is never emitted forward by the engine,
so no precondition is needed for it). -/
def preOp (op : EnumOp) (m : EnumNamesToValues) : Prop :=
  match op with
  | .createEnum n _ _ => dictLookup m n = none
  | .dropEnum n _ vs => dictLookup m n = some vs
  | .alterEnumAddValue n _ _ pos =>
      ∃ t, dictLookup m n = some t ∧ pos ≤ t.length
  | .alterEnumDropValue n _ v pos =>
      ∃ t1 t2, dictLookup m n = some (t1 ++ v :: t2) ∧ t1.length = pos

/-- The preconditions of a whole sequence, each at the state the previous
operations produce. -/
def seqPre : List EnumOp → EnumNamesToValues → Prop
  | [], _ => True
  | op :: rest, m => preOp op m ∧ seqPre rest (applyOp m op)

/-! ## Concrete example inputs, used by the closed instance checks -/

/-- A metadata with two distinct `Enum` type objects that share the name
`"status"` but declare conflicting value tuples. -/
def mdDup : MetaData :=
  ⟨[⟨"t", [⟨"c1", .enumType 1 "status" none ["a"]⟩,
           ⟨"c2", .enumType 2 "status" none ["b"]⟩]⟩]⟩

/-- A metadata whose single enum column has the explicit schema attribute
`""` (the empty string — falsy in Python but not `None`). -/
def mdSchemaEmpty : MetaData :=
  ⟨[⟨"t", [⟨"c", .enumType 7 "e" (some "") ["x"]⟩]⟩]⟩

/-- A small well-formed metadata: one table with one enum column. -/
def mdSample : MetaData :=
  ⟨[⟨"users", [⟨"status", .enumType 1 "user_status" none ["active", "passive"]⟩]⟩]⟩

/-- A catalog holding one enum type `e` in schema `public` whose rows are
physically stored in the order `a, c, b` while their `enumsortorder` is
`10, 20, 15` — the state after `CREATE TYPE e AS ENUM ('a','c')` followed
by `ALTER TYPE e ADD VALUE 'b' BEFORE 'c'`. -/
def catSample : Catalog :=
  ⟨[⟨1, 'e', 11, "e"⟩], [⟨11, "public"⟩],
   [⟨1, 10, "a"⟩, ⟨1, 20, "c"⟩, ⟨1, 15, "b"⟩]⟩

/-- A live snapshot: one enum to drop, one needing recreation, one
needing a value added. -/
def liveSample : EnumNamesToValues :=
  [("user_status", ["active", "passive"]), ("status", ["a", "b", "c"]),
   ("color", ["red"])]

/-- The declared snapshot for `liveSample`. -/
def declaredSample : EnumNamesToValues :=
  [("status", ["a", "c"]), ("color", ["red", "green"]), ("new_enum", ["x"])]

/-- Column operations the surrounding pipeline supplies for the sample
snapshots. -/
def colOpsSample : List ColumnOp :=
  [.addColumn "users" "status" "new_enum", .dropColumn "users" "old" "user_status"]

/-! ## Dictionary lemmas -/

theorem keysNodup_cons {α : Type} {p : String × α} {m : List (String × α)} :
    keysNodup (p :: m) ↔ p.1 ∉ m.map Prod.fst ∧ keysNodup m := by
  simp [keysNodup, List.nodup_cons]

theorem dictLookup_eq_none_iff {α : Type} (m : List (String × α)) (k : String) :
    dictLookup m k = none ↔ k ∉ m.map Prod.fst := by
  induction m with
  | nil => simp [dictLookup]
  | cons p rest ih =>
      obtain ⟨k0, v⟩ := p
      by_cases h : k0 = k
      · subst h
        simp [dictLookup]
      · simp only [dictLookup, if_neg h, List.map_cons, List.mem_cons, ih]
        constructor
        · intro hk hc
          rcases hc with hc | hc
          · exact h hc.symm
          · exact hk hc
        · intro hk hm
          exact hk (Or.inr hm)

theorem dictLookup_of_mem_nodup {α : Type} {m : List (String × α)}
    {k : String} {v : α} (hnd : keysNodup m) (hm : (k, v) ∈ m) :
    dictLookup m k = some v := by
  induction m with
  | nil => simp at hm
  | cons p rest ih =>
      obtain ⟨k0, v0⟩ := p
      obtain ⟨hni, hrest⟩ := keysNodup_cons.mp hnd
      rcases List.mem_cons.mp hm with h | h
      · simp only [Prod.mk.injEq] at h
        obtain ⟨h1, h2⟩ := h
        simp [dictLookup, h1.symm, h2]
      · have hk : k0 ≠ k := by
          intro he
          exact hni (he ▸ List.mem_map.mpr ⟨(k, v), h, rfl⟩)
        simp only [dictLookup, if_neg hk]
        exact ih hrest h

theorem dictLookup_some_split {α : Type} {m : List (String × α)} {k : String}
    {v : α} (h : dictLookup m k = some v) :
    ∃ l1 l2, m = l1 ++ (k, v) :: l2 ∧ k ∉ l1.map Prod.fst := by
  induction m with
  | nil => simp [dictLookup] at h
  | cons p rest ih =>
      obtain ⟨k0, v0⟩ := p
      by_cases hk : k0 = k
      · subst hk
        have hv : v0 = v := by simpa [dictLookup] using h
        subst hv
        exact ⟨[], rest, by simp, by simp⟩
      · simp only [dictLookup, if_neg hk] at h
        obtain ⟨l1, l2, hm, hnotin⟩ := ih h
        refine ⟨(k0, v0) :: l1, l2, by simp [hm], ?_⟩
        intro hc
        simp only [List.map_cons, List.mem_cons] at hc
        rcases hc with h' | h'
        · exact hk h'.symm
        · exact hnotin h'

theorem mem_keys_dictInsert {α : Type} (m : List (String × α)) (k k' : String)
    (v : α) :
    k' ∈ (dictInsert m k v).map Prod.fst ↔ k' = k ∨ k' ∈ m.map Prod.fst := by
  induction m with
  | nil => simp [dictInsert]
  | cons p rest ih =>
      obtain ⟨k0, v0⟩ := p
      by_cases h : k0 = k
      · simp only [dictInsert, if_pos h, List.map_cons, List.mem_cons]
        subst h
        tauto
      · simp only [dictInsert, if_neg h, List.map_cons, List.mem_cons, ih]
        tauto

theorem keysNodup_dictInsert {α : Type} {m : List (String × α)}
    (hnd : keysNodup m) (k : String) (v : α) : keysNodup (dictInsert m k v) := by
  induction m with
  | nil => simp [dictInsert, keysNodup]
  | cons p rest ih =>
      obtain ⟨k0, v0⟩ := p
      obtain ⟨hni, hrest⟩ := keysNodup_cons.mp hnd
      by_cases h : k0 = k
      · simp only [dictInsert, if_pos h]
        subst h
        exact keysNodup_cons.mpr ⟨hni, hrest⟩
      · simp only [dictInsert, if_neg h]
        refine keysNodup_cons.mpr ⟨?_, ih hrest⟩
        intro hc
        rcases (mem_keys_dictInsert rest k k0 v).mp hc with h' | h'
        · exact h h'
        · exact hni h'

theorem dictLookup_dictInsert_some {α : Type} {m : List (String × α)}
    {k k' : String} {v v' : α}
    (h : dictLookup (dictInsert m k v) k' = some v') :
    (k' = k ∧ v' = v) ∨ dictLookup m k' = some v' := by
  induction m with
  | nil =>
      by_cases hk : k = k'
      · subst hk
        have : v = v' := by simpa [dictInsert, dictLookup] using h
        exact Or.inl ⟨rfl, this.symm⟩
      · simp [dictInsert, dictLookup, hk] at h
  | cons p rest ih =>
      obtain ⟨k0, v0⟩ := p
      by_cases h0 : k0 = k
      · subst h0
        by_cases hk : k0 = k'
        · subst hk
          have : v = v' := by simpa [dictInsert, dictLookup] using h
          exact Or.inl ⟨rfl, this.symm⟩
        · simp only [dictInsert, if_pos rfl, dictLookup, if_neg hk] at h
          exact Or.inr (by simp [dictLookup, if_neg hk, h])
      · by_cases hk : k0 = k'
        · subst hk
          have : v0 = v' := by simpa [dictInsert, dictLookup, h0] using h
          exact Or.inr (by simp [dictLookup, this])
        · simp only [dictInsert, if_neg h0, dictLookup, if_neg hk] at h ⊢
          exact ih h

theorem keysNodup_dictOfAux {α : Type} (l : List (String × α))
    (m : List (String × α)) (hm : keysNodup m) :
    keysNodup (l.foldl (fun m p => dictInsert m p.1 p.2) m) := by
  induction l generalizing m with
  | nil => simpa using hm
  | cons p rest ih => exact ih _ (keysNodup_dictInsert hm p.1 p.2)

theorem keysNodup_dictOf {α : Type} (l : List (String × α)) :
    keysNodup (dictOf l) :=
  keysNodup_dictOfAux l [] (by simp [keysNodup])

theorem dictLookup_dictOfAux {α : Type} {l m : List (String × α)} {k : String}
    {v : α}
    (h : dictLookup (l.foldl (fun m p => dictInsert m p.1 p.2) m) k = some v) :
    (k, v) ∈ l ∨ dictLookup m k = some v := by
  induction l generalizing m with
  | nil => exact Or.inr h
  | cons p rest ih =>
      rcases ih h with hmem | hlook
      · exact Or.inl (List.mem_cons_of_mem _ hmem)
      · rcases dictLookup_dictInsert_some hlook with ⟨rfl, rfl⟩ | h'
        · exact Or.inl (by simp)
        · exact Or.inr h'

theorem dictLookup_dictOf_mem {α : Type} {l : List (String × α)} {k : String}
    {v : α} (h : dictLookup (dictOf l) k = some v) : (k, v) ∈ l := by
  rcases dictLookup_dictOfAux h with hmem | hlook
  · exact hmem
  · simp [dictLookup] at hlook

theorem mem_keys_dictOfAux {α : Type} {l : List (String × α)} {k : String}
    (m : List (String × α)) (h : k ∈ l.map Prod.fst ∨ k ∈ m.map Prod.fst) :
    k ∈ (l.foldl (fun m p => dictInsert m p.1 p.2) m).map Prod.fst := by
  induction l generalizing m with
  | nil => exact h.resolve_left (by simp)
  | cons p rest ih =>
      refine ih _ ?_
      rcases h with h | h
      · simp only [List.map_cons, List.mem_cons] at h
        rcases h with h' | h'
        · exact Or.inr ((mem_keys_dictInsert m p.1 k p.2).mpr (Or.inl h'))
        · exact Or.inl h'
      · exact Or.inr ((mem_keys_dictInsert m p.1 k p.2).mpr (Or.inr h))

theorem mem_keys_dictOf {α : Type} {l : List (String × α)} {k : String}
    (h : k ∈ l.map Prod.fst) : k ∈ (dictOf l).map Prod.fst :=
  mem_keys_dictOfAux [] (Or.inl h)

/-! ## Tuple-edit and operation-application lemmas -/

theorem dictLookup_cons {α : Type} (k0 : String) (v0 : α)
    (rest : List (String × α)) (k : String) :
    dictLookup ((k0, v0) :: rest) k =
      if k0 = k then some v0 else dictLookup rest k := rfl

theorem insertPos_append (pre l : List String) (v : String) :
    insertPos (pre ++ l) pre.length v = pre ++ v :: l := by
  induction pre with
  | nil => simp [insertPos]
  | cons a pre ih => simp [insertPos, ih]

theorem removePos_append (pre l : List String) (v : String) :
    removePos (pre ++ v :: l) pre.length = pre ++ l := by
  induction pre with
  | nil => rfl
  | cons a pre ih => simp [removePos, ih]

theorem removePos_insertPos (l : List String) (pos : Nat) (v : String)
    (h : pos ≤ l.length) : removePos (insertPos l pos v) pos = l := by
  induction l generalizing pos with
  | nil =>
      cases pos with
      | zero => rfl
      | succ p => simp at h
  | cons a l ih =>
      cases pos with
      | zero => rfl
      | succ p => simp [insertPos, removePos, ih p (by simpa using h)]

theorem dictLookup_append_one {α : Type} (m : List (String × α))
    (n k : String) (vs : α) :
    dictLookup (m ++ [(n, vs)]) k =
      if (dictLookup m k).isSome then dictLookup m k
      else if k = n then some vs else none := by
  induction m with
  | nil =>
      have hnil : dictLookup ([] : List (String × α)) k = none := rfl
      rw [List.nil_append, dictLookup_cons, hnil]
      by_cases h : n = k
      · rw [if_pos h, if_neg (by simp), if_pos h.symm]
      · rw [if_neg h, if_neg (by simp), if_neg (fun hc => h hc.symm)]
  | cons p rest ih =>
      obtain ⟨k0, v0⟩ := p
      by_cases h : k0 = k
      · simp [dictLookup_cons, h]
      · simp only [List.cons_append, dictLookup_cons, if_neg h]
        exact ih

theorem dictLookup_filter_ne {α : Type} (m : List (String × α)) (n k : String) :
    dictLookup (m.filter (fun p => p.1 ≠ n)) k =
      if k = n then none else dictLookup m k := by
  induction m with
  | nil => simp [dictLookup]
  | cons p rest ih =>
      obtain ⟨k0, v0⟩ := p
      by_cases h0 : k0 = n
      · have hf : ((k0, v0) :: rest).filter (fun p => p.1 ≠ n) =
            rest.filter (fun p => p.1 ≠ n) := by
          simp [List.filter_cons, h0]
        by_cases hkn : k = n
        · rw [hf, ih, if_pos hkn, if_pos hkn]
        · have hk0 : ¬k0 = k := fun hc => hkn ((hc.symm).trans h0)
          rw [hf, ih, if_neg hkn, if_neg hkn, dictLookup_cons, if_neg hk0]
      · have hf : ((k0, v0) :: rest).filter (fun p => p.1 ≠ n) =
            (k0, v0) :: rest.filter (fun p => p.1 ≠ n) := by
          simp [List.filter_cons, h0]
        rw [hf]
        by_cases hk : k0 = k
        · have hkn : ¬k = n := fun hc => h0 (hk.trans hc)
          rw [dictLookup_cons, if_pos hk, if_neg hkn, dictLookup_cons, if_pos hk]
        · rw [dictLookup_cons, if_neg hk, ih]
          by_cases hkn : k = n
          · rw [if_pos hkn, if_pos hkn]
          · rw [if_neg hkn, if_neg hkn, dictLookup_cons, if_neg hk]

theorem dictLookup_map_modify {α : Type} (m : List (String × α)) (n k : String)
    (g : α → α) :
    dictLookup (m.map (fun p => if p.1 = n then (p.1, g p.2) else p)) k =
      if k = n then (dictLookup m n).map g else dictLookup m k := by
  induction m with
  | nil => simp [dictLookup]
  | cons p rest ih =>
      obtain ⟨k0, v0⟩ := p
      have hmap : (((k0, v0) : String × α) :: rest).map
            (fun p => if p.1 = n then (p.1, g p.2) else p) =
          (if k0 = n then (k0, g v0) else (k0, v0)) ::
            rest.map (fun p => if p.1 = n then (p.1, g p.2) else p) := rfl
      rw [hmap]
      by_cases h0n : k0 = n
      · rw [if_pos h0n]
        by_cases hk : k0 = k
        · have hkn : k = n := hk.symm.trans h0n
          rw [dictLookup_cons, if_pos hk, if_pos hkn, dictLookup_cons, if_pos h0n]
          rfl
        · have hkn : ¬k = n := fun hc => hk (h0n.trans hc.symm)
          rw [dictLookup_cons, if_neg hk, ih, if_neg hkn, if_neg hkn,
            dictLookup_cons, if_neg hk]
      · rw [if_neg h0n]
        by_cases hk : k0 = k
        · have hkn : ¬k = n := fun hc => h0n (hk.trans hc)
          rw [dictLookup_cons, if_pos hk, if_neg hkn, dictLookup_cons, if_pos hk]
        · rw [dictLookup_cons, if_neg hk, ih]
          by_cases hkn : k = n
          · rw [if_pos hkn, if_pos hkn, dictLookup_cons, if_neg h0n]
          · rw [if_neg hkn, if_neg hkn, dictLookup_cons, if_neg hk]

theorem applyOp_dictLookup (m : EnumNamesToValues) (op : EnumOp) (k : String) :
    dictLookup (applyOp m op) k = lookupAfter (dictLookup m) op k := by
  cases op with
  | createEnum n s vs =>
      rw [show applyOp m (.createEnum n s vs) = m ++ [(n, vs)] from rfl,
        dictLookup_append_one]
      cases hm : dictLookup m k with
      | none => simp [lookupAfter, hm]
      | some v => simp [lookupAfter, hm]
  | dropEnum n s vs =>
      simpa [applyOp, lookupAfter] using dictLookup_filter_ne m n k
  | alterEnumAddValue n s v pos =>
      simpa [applyOp, lookupAfter] using
        dictLookup_map_modify m n k (fun t => insertPos t pos v)
  | alterEnumDropValue n s v pos =>
      simpa [applyOp, lookupAfter] using
        dictLookup_map_modify m n k (fun t => removePos t pos)

theorem applyOp_dictLookup_ne (m : EnumNamesToValues) (op : EnumOp)
    {k : String} (h : k ≠ op.opName) :
    dictLookup (applyOp m op) k = dictLookup m k := by
  rw [applyOp_dictLookup]
  cases op with
  | createEnum n s vs =>
      simp only [EnumOp.opName] at h
      cases hm : dictLookup m k <;> simp [lookupAfter, hm, h]
  | dropEnum n s vs =>
      simp only [EnumOp.opName] at h
      simp [lookupAfter, h]
  | alterEnumAddValue n s v pos =>
      simp only [EnumOp.opName] at h
      simp [lookupAfter, h]
  | alterEnumDropValue n s v pos =>
      simp only [EnumOp.opName] at h
      simp [lookupAfter, h]

theorem applySeq_cons (op : EnumOp) (ops : List EnumOp) (m : EnumNamesToValues) :
    applySeq (op :: ops) m = applySeq ops (applyOp m op) := rfl

theorem applySeq_append (A B : List EnumOp) (m : EnumNamesToValues) :
    applySeq (A ++ B) m = applySeq B (applySeq A m) := by
  simp [applySeq, List.foldl_append]

theorem dictLookup_applySeq_ne (ops : List EnumOp) (m : EnumNamesToValues)
    {k : String} (h : ∀ op ∈ ops, op.opName ≠ k) :
    dictLookup (applySeq ops m) k = dictLookup m k := by
  induction ops generalizing m with
  | nil => rfl
  | cons op rest ih =>
      rw [applySeq_cons,
        ih (applyOp m op) (fun o ho => h o (List.mem_cons_of_mem _ ho)),
        applyOp_dictLookup_ne]
      exact fun hc => h op (by simp) hc.symm

theorem seqPre_append (A B : List EnumOp) (m : EnumNamesToValues) :
    seqPre (A ++ B) m ↔ seqPre A m ∧ seqPre B (applySeq A m) := by
  induction A generalizing m with
  | nil => simp [seqPre, applySeq]
  | cons op rest ih =>
      simp [seqPre, ih, applySeq_cons, and_assoc]

theorem applyOp_congr {m m' : EnumNamesToValues} (op : EnumOp)
    (h : ∀ k, dictLookup m k = dictLookup m' k) :
    ∀ k, dictLookup (applyOp m op) k = dictLookup (applyOp m' op) k := by
  intro k
  rw [applyOp_dictLookup, applyOp_dictLookup]
  cases op <;> simp [lookupAfter, h]

theorem applyOp_inverse {m : EnumNamesToValues} {op : EnumOp} (h : preOp op m) :
    ∀ k, dictLookup (applyOp (applyOp m op) (inverseOp op)) k = dictLookup m k := by
  intro k
  cases op with
  | createEnum n s vs =>
      simp only [preOp] at h
      simp only [inverseOp, applyOp_dictLookup, lookupAfter]
      by_cases hk : k = n
      · subst hk
        simp [h]
      · cases hm : dictLookup m k <;> simp [hk, hm]
  | dropEnum n s vs =>
      simp only [preOp] at h
      simp only [inverseOp, applyOp_dictLookup, lookupAfter]
      by_cases hk : k = n
      · subst hk
        simp [h]
      · cases hm : dictLookup m k <;> simp [hk, hm]
  | alterEnumAddValue n s v pos =>
      obtain ⟨t, ht, hlen⟩ := h
      simp only [inverseOp, applyOp_dictLookup, lookupAfter]
      by_cases hk : k = n
      · subst hk
        simp [ht, removePos_insertPos t pos v hlen]
      · simp [hk]
  | alterEnumDropValue n s v pos =>
      obtain ⟨t1, t2, ht, hlen⟩ := h
      simp only [inverseOp, applyOp_dictLookup, lookupAfter]
      by_cases hk : k = n
      · subst hk
        subst hlen
        simp [ht, removePos_append, insertPos_append]
      · simp [hk]

theorem seqPre_roundTrip {ops : List EnumOp} {m : EnumNamesToValues}
    (h : seqPre ops m) :
    ∀ k, dictLookup (applySeq (inverseSeq ops) (applySeq ops m)) k =
      dictLookup m k := by
  induction ops generalizing m with
  | nil => intro k; rfl
  | cons op rest ih =>
      obtain ⟨hpre, hrest⟩ := h
      intro k
      have h2 : inverseSeq (op :: rest) = inverseSeq rest ++ [inverseOp op] := by
        simp [inverseSeq]
      rw [applySeq_cons, h2, applySeq_append]
      have hcong := applyOp_congr (inverseOp op) (ih hrest)
      rw [show applySeq [inverseOp op]
            (applySeq (inverseSeq rest) (applySeq rest (applyOp m op))) =
          applyOp (applySeq (inverseSeq rest) (applySeq rest (applyOp m op)))
            (inverseOp op) from rfl]
      rw [hcong k]
      exact applyOp_inverse hpre k

/-! ## Structure of the diff output -/

theorem changedEnumOps_opName {s n : String} {lv dv : List String}
    {op : EnumOp} (h : op ∈ changedEnumOps s n lv dv) : op.opName = n := by
  unfold changedEnumOps at h
  by_cases he : lv = dv
  · simp [he] at h
  · by_cases hs : isSublist lv dv
    · simp only [if_neg he, if_pos hs] at h
      obtain ⟨q, _, rfl⟩ := List.mem_map.mp h
      rfl
    · simp only [if_neg he, if_neg hs] at h
      rcases List.mem_cons.mp h with rfl | h
      · rfl
      · rcases List.mem_cons.mp h with rfl | h
        · rfl
        · simp at h

theorem changedEnumOps_not_alterDrop {s n : String} {lv dv : List String}
    {op : EnumOp} (h : op ∈ changedEnumOps s n lv dv) :
    op.isAlterDropValue = false := by
  unfold changedEnumOps at h
  by_cases he : lv = dv
  · simp [he] at h
  · by_cases hs : isSublist lv dv
    · simp only [if_neg he, if_pos hs] at h
      obtain ⟨q, _, rfl⟩ := List.mem_map.mp h
      rfl
    · simp only [if_neg he, if_neg hs] at h
      rcases List.mem_cons.mp h with rfl | h
      · rfl
      · rcases List.mem_cons.mp h with rfl | h
        · rfl
        · simp at h

theorem changedEnumOps_addOnly {s n : String} {lv dv : List String}
    (hs : isSublist lv dv = true) {op : EnumOp}
    (h : op ∈ changedEnumOps s n lv dv) :
    ∃ v p, op = .alterEnumAddValue n s v p := by
  unfold changedEnumOps at h
  by_cases he : lv = dv
  · simp [he] at h
  · simp only [if_neg he, if_pos hs] at h
    obtain ⟨q, _, rfl⟩ := List.mem_map.mp h
    exact ⟨q.1, q.2, rfl⟩

theorem changedEnumOps_recreate {s n : String} {lv dv : List String}
    (he : lv ≠ dv) (hs : isSublist lv dv = false) :
    changedEnumOps s n lv dv = [.dropEnum n s lv, .createEnum n s dv] := by
  simp [changedEnumOps, he, hs]

theorem changedOps_cons (s : String) (p : String × List String)
    (rest declared : EnumNamesToValues) :
    changedOps s (p :: rest) declared =
      (match dictLookup declared p.1 with
       | some dv => changedEnumOps s p.1 p.2 dv
       | none => []) ++ changedOps s rest declared := by
  cases h : dictLookup declared p.1 <;> simp [changedOps, h]

theorem changedOps_opName {s : String} {live declared : EnumNamesToValues}
    {op : EnumOp} (h : op ∈ changedOps s live declared) :
    op.opName ∈ live.map Prod.fst ∧ (dictLookup declared op.opName).isSome := by
  induction live with
  | nil => simp [changedOps] at h
  | cons p rest ih =>
      rw [changedOps_cons] at h
      rcases List.mem_append.mp h with h | h
      · cases hd : dictLookup declared p.1 with
        | none => simp [hd] at h
        | some dv =>
            simp only [hd] at h
            have hn := changedEnumOps_opName h
            refine ⟨by simp [hn], ?_⟩
            rw [hn, hd]
            rfl
      · obtain ⟨h1, h2⟩ := ih h
        refine ⟨?_, h2⟩
        rw [List.map_cons]
        exact List.mem_cons_of_mem _ h1

theorem changedOps_split (s : String) {live declared : EnumNamesToValues}
    {n : String} {lv dv : List String} (hnd : keysNodup live)
    (hl : dictLookup live n = some lv) (hd : dictLookup declared n = some dv) :
    ∃ l1 l2, changedOps s live declared = l1 ++ changedEnumOps s n lv dv ++ l2 ∧
      (∀ op ∈ l1, op.opName ≠ n) ∧ (∀ op ∈ l2, op.opName ≠ n) := by
  induction live with
  | nil => simp [dictLookup] at hl
  | cons p rest ih =>
      obtain ⟨k0, v0⟩ := p
      obtain ⟨hni, hrest⟩ := keysNodup_cons.mp hnd
      by_cases hk : k0 = n
      · subst hk
        have hv : v0 = lv := by simpa [dictLookup_cons] using hl
        subst hv
        refine ⟨[], changedOps s rest declared, ?_, by simp, ?_⟩
        · rw [changedOps_cons]
          simp [hd]
        · intro op hop
          obtain ⟨h1, _⟩ := changedOps_opName hop
          intro hc
          exact hni (hc ▸ h1)
      · rw [dictLookup_cons, if_neg hk] at hl
        obtain ⟨l1, l2, heq, hl1, hl2⟩ := ih hrest hl
        refine ⟨(match dictLookup declared k0 with
                 | some dv0 => changedEnumOps s k0 v0 dv0
                 | none => []) ++ l1, l2, ?_, ?_, hl2⟩
        · rw [changedOps_cons, heq]
          simp
        · intro op hop
          rcases List.mem_append.mp hop with h | h
          · cases hd0 : dictLookup declared k0 with
            | none => simp [hd0] at h
            | some dv0 =>
                simp only [hd0] at h
                rw [changedEnumOps_opName h]
                exact hk
          · exact hl1 op h

theorem createOps_shape {s : String} {live declared : EnumNamesToValues}
    {op : EnumOp} (h : op ∈ createOps s live declared) :
    ∃ p ∈ declared, dictLookup live p.1 = none ∧ op = .createEnum p.1 s p.2 := by
  obtain ⟨p, hp, rfl⟩ := List.mem_map.mp h
  obtain ⟨hmem, hfil⟩ := List.mem_filter.mp hp
  exact ⟨p, hmem, Option.isNone_iff_eq_none.mp (by simpa using hfil), rfl⟩

theorem dropOps_shape {s : String} {live declared : EnumNamesToValues}
    {op : EnumOp} (h : op ∈ dropOps s live declared) :
    ∃ p ∈ live, dictLookup declared p.1 = none ∧ op = .dropEnum p.1 s p.2 := by
  obtain ⟨p, hp, rfl⟩ := List.mem_map.mp h
  obtain ⟨hmem, hfil⟩ := List.mem_filter.mp hp
  exact ⟨p, hmem, Option.isNone_iff_eq_none.mp (by simpa using hfil), rfl⟩

theorem notin_keys_of_append_cons {α : Type} {m D1 D2 : List (String × α)}
    {E : String} {v : α} (hnd : keysNodup m) (hm : m = D1 ++ (E, v) :: D2) :
    E ∉ D1.map Prod.fst ∧ E ∉ D2.map Prod.fst := by
  subst hm
  unfold keysNodup at hnd
  rw [List.map_append, List.map_cons] at hnd
  have hdisj := List.disjoint_of_nodup_append hnd
  have h2 : (E :: D2.map Prod.fst).Nodup := hnd.of_append_right
  exact ⟨fun hc => hdisj hc (by simp), (List.nodup_cons.mp h2).1⟩

theorem createOps_split (s : String) {live declared : EnumNamesToValues}
    {E : String} {dvs : List String} (hnd : keysNodup declared)
    (hd : dictLookup declared E = some dvs) (hl : dictLookup live E = none) :
    ∃ c1 c2, createOps s live declared = c1 ++ .createEnum E s dvs :: c2 ∧
      (∀ op ∈ c1, op.opName ≠ E) ∧ (∀ op ∈ c2, op.opName ≠ E) := by
  obtain ⟨D1, D2, hsplit, _⟩ := dictLookup_some_split hd
  obtain ⟨hnd1, hnd2⟩ := notin_keys_of_append_cons hnd hsplit
  have hfil : declared.filter (fun p => (dictLookup live p.1).isNone) =
      D1.filter (fun p => (dictLookup live p.1).isNone) ++
        (E, dvs) :: D2.filter (fun p => (dictLookup live p.1).isNone) := by
    rw [hsplit, List.filter_append, List.filter_cons]
    simp [hl]
  refine ⟨(D1.filter (fun p => (dictLookup live p.1).isNone)).map
      (fun p => .createEnum p.1 s p.2),
    (D2.filter (fun p => (dictLookup live p.1).isNone)).map
      (fun p => .createEnum p.1 s p.2), ?_, ?_, ?_⟩
  · rw [createOps, hfil]
    simp
  · intro op hop
    obtain ⟨p, hp, rfl⟩ := List.mem_map.mp hop
    intro hc
    exact hnd1 (hc ▸ List.mem_map.mpr ⟨p, (List.mem_filter.mp hp).1, rfl⟩)
  · intro op hop
    obtain ⟨p, hp, rfl⟩ := List.mem_map.mp hop
    intro hc
    exact hnd2 (hc ▸ List.mem_map.mpr ⟨p, (List.mem_filter.mp hp).1, rfl⟩)

theorem dropOps_split (s : String) {live declared : EnumNamesToValues}
    {F : String} {lvs : List String} (hnd : keysNodup live)
    (hl : dictLookup live F = some lvs) (hd : dictLookup declared F = none) :
    ∃ d1 d2, dropOps s live declared = d1 ++ .dropEnum F s lvs :: d2 ∧
      (∀ op ∈ d1, op.opName ≠ F) ∧ (∀ op ∈ d2, op.opName ≠ F) := by
  obtain ⟨D1, D2, hsplit, _⟩ := dictLookup_some_split hl
  obtain ⟨hnd1, hnd2⟩ := notin_keys_of_append_cons hnd hsplit
  have hfil : live.filter (fun p => (dictLookup declared p.1).isNone) =
      D1.filter (fun p => (dictLookup declared p.1).isNone) ++
        (F, lvs) :: D2.filter (fun p => (dictLookup declared p.1).isNone) := by
    rw [hsplit, List.filter_append, List.filter_cons]
    simp [hd]
  refine ⟨(D1.filter (fun p => (dictLookup declared p.1).isNone)).map
      (fun p => .dropEnum p.1 s p.2),
    (D2.filter (fun p => (dictLookup declared p.1).isNone)).map
      (fun p => .dropEnum p.1 s p.2), ?_, ?_, ?_⟩
  · rw [dropOps, hfil]
    simp
  · intro op hop
    obtain ⟨p, hp, rfl⟩ := List.mem_map.mp hop
    intro hc
    exact hnd1 (hc ▸ List.mem_map.mpr ⟨p, (List.mem_filter.mp hp).1, rfl⟩)
  · intro op hop
    obtain ⟨p, hp, rfl⟩ := List.mem_map.mp hop
    intro hc
    exact hnd2 (hc ▸ List.mem_map.mpr ⟨p, (List.mem_filter.mp hp).1, rfl⟩)

theorem isSublist_mem {l t : List String} (h : isSublist l t = true) :
    ∀ x ∈ l, x ∈ t := by
  induction t generalizing l with
  | nil =>
      cases l with
      | nil => simp
      | cons a as => simp [isSublist] at h
  | cons b bs ih =>
      cases l with
      | nil => simp
      | cons a as =>
          by_cases hab : a = b
          · subst hab
            simp only [isSublist, if_pos rfl] at h
            intro x hx
            rcases List.mem_cons.mp hx with rfl | hx
            · simp
            · exact List.mem_cons_of_mem _ (ih h x hx)
          · simp only [isSublist, if_neg hab] at h
            intro x hx
            exact List.mem_cons_of_mem _ (ih h x hx)

/-! ## Preconditions of the diff sequence hold at the live snapshot -/

theorem isSublist_nil (t : List String) : isSublist [] t = true := by
  cases t <;> rfl

theorem computeInsertions_nil_cons (d : String) (ds : List String) (p : Nat) :
    computeInsertions [] (d :: ds) p = (d, p) :: computeInsertions [] ds (p + 1) :=
  rfl

theorem computeInsertions_cons_eq {a d : String} (as ds : List String) (p : Nat)
    (h : a = d) :
    computeInsertions (a :: as) (d :: ds) p = computeInsertions as ds (p + 1) := by
  conv_lhs => unfold computeInsertions
  rw [if_pos h.symm]

theorem computeInsertions_cons_ne {a d : String} (as ds : List String) (p : Nat)
    (h : ¬a = d) :
    computeInsertions (a :: as) (d :: ds) p =
      (d, p) :: computeInsertions (a :: as) ds (p + 1) := by
  conv_lhs => unfold computeInsertions
  rw [if_neg (fun hc => h hc.symm)]

theorem insertions_seqPre (n sch : String) (dv : List String) :
    ∀ (lv pre : List String) (m : EnumNamesToValues),
      isSublist lv dv = true →
      dictLookup m n = some (pre ++ lv) →
      seqPre ((computeInsertions lv dv pre.length).map
          (fun q => EnumOp.alterEnumAddValue n sch q.1 q.2)) m ∧
      dictLookup (applySeq ((computeInsertions lv dv pre.length).map
          (fun q => EnumOp.alterEnumAddValue n sch q.1 q.2)) m) n =
        some (pre ++ dv) := by
  induction dv with
  | nil =>
      intro lv pre m hsub hm
      cases lv with
      | nil => exact ⟨trivial, by simpa [computeInsertions, applySeq] using hm⟩
      | cons a as => simp [isSublist] at hsub
  | cons d ds ih =>
      intro lv pre m hsub hm
      cases lv with
      | nil =>
          rw [computeInsertions_nil_cons, List.map_cons]
          have hm' : dictLookup m n = some pre := by simpa using hm
          have hlook : dictLookup
              (applyOp m (.alterEnumAddValue n sch d pre.length)) n =
              some ((pre ++ [d]) ++ []) := by
            rw [applyOp_dictLookup]
            simp only [lookupAfter, if_pos rfl, hm']
            have : insertPos pre pre.length d = pre ++ [d] := by
              simpa using insertPos_append pre [] d
            simp [this]
          have hlen : pre.length + 1 = (pre ++ [d]).length := by simp
          have hrec := ih [] (pre ++ [d])
            (applyOp m (.alterEnumAddValue n sch d pre.length)) (isSublist_nil ds)
            (by simpa using hlook)
          rw [hlen]
          refine ⟨⟨⟨pre, hm', by simp⟩, hrec.1⟩, ?_⟩
          rw [applySeq_cons]
          simpa [List.append_assoc] using hrec.2
      | cons a as =>
          by_cases had : a = d
          · rw [computeInsertions_cons_eq as ds pre.length had]
            have hsub' : isSublist as ds = true := by
              have := hsub
              unfold isSublist at this
              rwa [if_pos had] at this
            have hm' : dictLookup m n = some ((pre ++ [a]) ++ as) := by
              simpa [List.append_assoc] using hm
            have hlen : pre.length + 1 = (pre ++ [a]).length := by simp
            rw [hlen]
            have hrec := ih as (pre ++ [a]) m hsub' hm'
            refine ⟨hrec.1, ?_⟩
            rw [hrec.2]
            subst had
            simp [List.append_assoc]
          · rw [computeInsertions_cons_ne as ds pre.length had, List.map_cons]
            have hsub' : isSublist (a :: as) ds = true := by
              have := hsub
              unfold isSublist at this
              rwa [if_neg had] at this
            have hlook : dictLookup
                (applyOp m (.alterEnumAddValue n sch d pre.length)) n =
                some ((pre ++ [d]) ++ a :: as) := by
              rw [applyOp_dictLookup]
              simp only [lookupAfter, if_pos rfl, hm]
              have : insertPos (pre ++ a :: as) pre.length d =
                  pre ++ d :: a :: as := insertPos_append pre (a :: as) d
              simp [this, List.append_assoc]
            have hlen : pre.length + 1 = (pre ++ [d]).length := by simp
            have hrec := ih (a :: as) (pre ++ [d])
              (applyOp m (.alterEnumAddValue n sch d pre.length)) hsub' hlook
            rw [hlen]
            refine ⟨⟨⟨pre ++ a :: as, hm, by simp⟩, hrec.1⟩, ?_⟩
            rw [applySeq_cons]
            simpa [List.append_assoc] using hrec.2

theorem changedEnumOps_seqPre {sch n : String} {lv dv : List String}
    {m : EnumNamesToValues} (hm : dictLookup m n = some lv) :
    seqPre (changedEnumOps sch n lv dv) m := by
  unfold changedEnumOps
  by_cases he : lv = dv
  · simp [he, seqPre]
  · by_cases hs : isSublist lv dv
    · rw [if_neg he, if_pos hs]
      have := (insertions_seqPre n sch dv lv [] m hs
        (by simpa using hm)).1
      simpa using this
    · rw [if_neg he, if_neg hs]
      refine ⟨hm, ?_, trivial⟩
      rw [show preOp (.createEnum n sch dv)
            (applyOp m (.dropEnum n sch lv)) =
          (dictLookup (applyOp m (.dropEnum n sch lv)) n = none) from rfl]
      rw [applyOp_dictLookup]
      simp [lookupAfter]

theorem changedOps_seqPre {sch : String} {declared : EnumNamesToValues} :
    ∀ (live m : EnumNamesToValues),
      keysNodup live →
      (∀ p ∈ live, dictLookup m p.1 = some p.2) →
      seqPre (changedOps sch live declared) m := by
  intro live
  induction live with
  | nil => intro m _ _; trivial
  | cons p rest ih =>
      intro m hnd hmem
      obtain ⟨hni, hrest⟩ := keysNodup_cons.mp hnd
      rw [changedOps_cons, seqPre_append]
      constructor
      · cases hd : dictLookup declared p.1 with
        | none => trivial
        | some dv => exact changedEnumOps_seqPre (hmem p (by simp))
      · apply ih _ hrest
        intro q hq
        have hq1 : q.1 ≠ p.1 := by
          intro hc
          exact hni (hc ▸ List.mem_map.mpr ⟨q, hq, rfl⟩)
        rw [dictLookup_applySeq_ne]
        · exact hmem q (List.mem_cons_of_mem _ hq)
        · intro op hop
          cases hd : dictLookup declared p.1 with
          | none => rw [hd] at hop; simp at hop
          | some dv =>
              rw [hd] at hop
              rw [changedEnumOps_opName hop]
              exact fun hc => hq1 hc.symm

theorem createOps_cons (sch : String) (live : EnumNamesToValues)
    (p : String × List String) (rest : EnumNamesToValues) :
    createOps sch live (p :: rest) =
      (if (dictLookup live p.1).isNone then [EnumOp.createEnum p.1 sch p.2]
       else []) ++ createOps sch live rest := by
  by_cases h : (dictLookup live p.1).isNone <;>
    simp [createOps, List.filter_cons, h]

theorem dropOps_cons (sch : String) (declared : EnumNamesToValues)
    (p : String × List String) (rest : EnumNamesToValues) :
    dropOps sch (p :: rest) declared =
      (if (dictLookup declared p.1).isNone then [EnumOp.dropEnum p.1 sch p.2]
       else []) ++ dropOps sch rest declared := by
  by_cases h : (dictLookup declared p.1).isNone <;>
    simp [dropOps, List.filter_cons, h]

theorem createOps_seqPre {sch : String} {live : EnumNamesToValues} :
    ∀ (declared m : EnumNamesToValues),
      keysNodup declared →
      (∀ p ∈ declared, (dictLookup live p.1).isNone →
        dictLookup m p.1 = none) →
      seqPre (createOps sch live declared) m := by
  intro declared
  induction declared with
  | nil => intro m _ _; trivial
  | cons p rest ih =>
      intro m hnd hmem
      obtain ⟨hni, hrest⟩ := keysNodup_cons.mp hnd
      rw [createOps_cons, seqPre_append]
      by_cases h : (dictLookup live p.1).isNone
      · rw [if_pos h]
        refine ⟨⟨hmem p (by simp) h, trivial⟩, ?_⟩
        apply ih _ hrest
        intro q hq hq2
        have hq1 : q.1 ≠ p.1 := by
          intro hc
          exact hni (hc ▸ List.mem_map.mpr ⟨q, hq, rfl⟩)
        rw [show applySeq [EnumOp.createEnum p.1 sch p.2] m =
            applyOp m (EnumOp.createEnum p.1 sch p.2) from rfl]
        rw [applyOp_dictLookup_ne _ _ hq1]
        exact hmem q (List.mem_cons_of_mem _ hq) hq2
      · rw [if_neg h]
        refine ⟨trivial, ?_⟩
        apply ih _ hrest
        intro q hq hq2
        exact hmem q (List.mem_cons_of_mem _ hq) hq2

theorem dropOps_seqPre {sch : String} {declared : EnumNamesToValues} :
    ∀ (live m : EnumNamesToValues),
      keysNodup live →
      (∀ p ∈ live, (dictLookup declared p.1).isNone →
        dictLookup m p.1 = some p.2) →
      seqPre (dropOps sch live declared) m := by
  intro live
  induction live with
  | nil => intro m _ _; trivial
  | cons p rest ih =>
      intro m hnd hmem
      obtain ⟨hni, hrest⟩ := keysNodup_cons.mp hnd
      rw [dropOps_cons, seqPre_append]
      by_cases h : (dictLookup declared p.1).isNone
      · rw [if_pos h]
        refine ⟨⟨hmem p (by simp) h, trivial⟩, ?_⟩
        apply ih _ hrest
        intro q hq hq2
        have hq1 : q.1 ≠ p.1 := by
          intro hc
          exact hni (hc ▸ List.mem_map.mpr ⟨q, hq, rfl⟩)
        rw [show applySeq [EnumOp.dropEnum p.1 sch p.2] m =
            applyOp m (EnumOp.dropEnum p.1 sch p.2) from rfl]
        rw [applyOp_dictLookup_ne _ _ hq1]
        exact hmem q (List.mem_cons_of_mem _ hq) hq2
      · rw [if_neg h]
        refine ⟨trivial, ?_⟩
        apply ih _ hrest
        intro q hq hq2
        exact hmem q (List.mem_cons_of_mem _ hq) hq2

theorem enumDiff_seqPre {sch : String} {live declared : EnumNamesToValues}
    (hndl : keysNodup live) (hndd : keysNodup declared) :
    seqPre (enumDiff sch live declared) live := by
  unfold enumDiff
  rw [seqPre_append, seqPre_append, applySeq_append]
  refine ⟨⟨?_, ?_⟩, ?_⟩
  · exact changedOps_seqPre live live hndl
      (fun p hp => dictLookup_of_mem_nodup hndl hp)
  · apply createOps_seqPre declared _ hndd
    intro p hp hnone
    have hlive : dictLookup live p.1 = none :=
      Option.isNone_iff_eq_none.mp hnone
    rw [dictLookup_applySeq_ne]
    · exact hlive
    · intro op hop
      obtain ⟨h1, _⟩ := changedOps_opName hop
      intro hc
      exact (dictLookup_eq_none_iff live p.1).mp hlive (hc ▸ h1)
  · apply dropOps_seqPre live _ hndl
    intro p hp hnone
    rw [dictLookup_applySeq_ne]
    · rw [dictLookup_applySeq_ne]
      · exact dictLookup_of_mem_nodup hndl hp
      · intro op hop
        obtain ⟨_, h2⟩ := changedOps_opName hop
        intro hc
        rw [hc, Option.isNone_iff_eq_none.mp hnone] at h2
        simp at h2
    · intro op hop
      obtain ⟨q, _, hqnone, rfl⟩ := createOps_shape hop
      intro hc
      rw [show (EnumOp.createEnum q.1 sch q.2).opName = q.1 from rfl] at hc
      rw [hc, dictLookup_of_mem_nodup hndl hp] at hqnone
      simp at hqnone

/-! ## Small facts about operation predicates -/

theorem isCreateNamed_opName {op : EnumOp} {n : String}
    (h : op.isCreateNamed n = true) : op.opName = n := by
  cases op <;> simp [EnumOp.isCreateNamed] at h <;> simpa [EnumOp.opName]

theorem isDropNamed_opName {op : EnumOp} {n : String}
    (h : op.isDropNamed n = true) : op.opName = n := by
  cases op <;> simp [EnumOp.isDropNamed] at h <;> simpa [EnumOp.opName]

theorem isCreateNamed_false_of_opName_ne {op : EnumOp} {n : String}
    (h : op.opName ≠ n) : op.isCreateNamed n = false := by
  cases hc : op.isCreateNamed n
  · rfl
  · exact absurd (isCreateNamed_opName hc) h

theorem isDropNamed_false_of_opName_ne {op : EnumOp} {n : String}
    (h : op.opName ≠ n) : op.isDropNamed n = false := by
  cases hc : op.isDropNamed n
  · rfl
  · exact absurd (isDropNamed_opName hc) h

theorem changedOps_not_alterDrop {s : String} {live declared : EnumNamesToValues}
    {op : EnumOp} (h : op ∈ changedOps s live declared) :
    op.isAlterDropValue = false := by
  induction live with
  | nil => simp [changedOps] at h
  | cons p rest ih =>
      rw [changedOps_cons] at h
      rcases List.mem_append.mp h with h | h
      · cases hd : dictLookup declared p.1 with
        | none => rw [hd] at h; simp at h
        | some dv => rw [hd] at h; exact changedEnumOps_not_alterDrop h
      · exact ih h

theorem changedOps_nil_of_self {s : String} {m : EnumNamesToValues} :
    ∀ live : EnumNamesToValues,
      (∀ p ∈ live, dictLookup m p.1 = some p.2) →
      changedOps s live m = [] := by
  intro live
  induction live with
  | nil => intro _; rfl
  | cons p rest ih =>
      intro hmem
      rw [changedOps_cons, hmem p (by simp)]
      have hg : (match some p.2 with
          | some dv => changedEnumOps s p.1 p.2 dv
          | none => ([] : List EnumOp)) = changedEnumOps s p.1 p.2 p.2 := rfl
      rw [hg, show changedEnumOps s p.1 p.2 p.2 = [] from by
        simp [changedEnumOps]]
      rw [List.nil_append]
      exact ih (fun q hq => hmem q (List.mem_cons_of_mem _ hq))

theorem mem_isSome_lookup {α : Type} {m : List (String × α)} {p : String × α}
    (hp : p ∈ m) : (dictLookup m p.1).isSome = true := by
  cases h : dictLookup m p.1 with
  | some v => rfl
  | none =>
      exact absurd (List.mem_map.mpr ⟨p, hp, rfl⟩)
        ((dictLookup_eq_none_iff m p.1).mp h)

/-! ## C6 — idempotence of the diff on identical snapshots -/

/-- C6: for every `DeclaredEnumValues` snapshot `D` (whose mapping, being a
Python dict, has pairwise distinct keys), running the diff with both the
live and the declared side equal to `D` yields an empty operation
sequence. -/
theorem c6_diff_idempotent (s : String) (D : DeclaredEnumValues)
    (hnd : keysNodup D.enum_definitions) :
    enumDiff s D.enum_definitions D.enum_definitions = [] := by
  unfold enumDiff
  rw [changedOps_nil_of_self D.enum_definitions
    (fun p hp => dictLookup_of_mem_nodup hnd hp)]
  rw [show createOps s D.enum_definitions D.enum_definitions = [] from by
    unfold createOps
    rw [List.filter_eq_nil_iff.mpr]
    · rfl
    · intro p hp
      cases h : dictLookup D.enum_definitions p.1 with
      | none =>
          have hs := mem_isSome_lookup hp
          rw [h] at hs
          simp at hs
      | some v => simp [h]]
  rw [show dropOps s D.enum_definitions D.enum_definitions = [] from by
    unfold dropOps
    rw [List.filter_eq_nil_iff.mpr]
    · rfl
    · intro p hp
      cases h : dictLookup D.enum_definitions p.1 with
      | none =>
          have hs := mem_isSome_lookup hp
          rw [h] at hs
          simp at hs
      | some v => simp [h]]
  rfl

/-- Closed instance of `c6_diff_idempotent` at a concrete snapshot. -/
theorem c6_diff_idempotent_witness :
    enumDiff "public" declaredSample declaredSample = [] :=
  c6_diff_idempotent "public" ⟨declaredSample, none⟩ (by decide)

/-! ## C3 — the value pipeline of `get_enum_values` -/

/-- C3: for a decorator-wrapped enum type, `get_enum_values` returns the
declared values each passed through the wrapped type's result processor
and then `process_bind_param`; for a plain `Enum` type it returns the
declared values unchanged as a tuple. -/
theorem c3_get_enum_values_pipeline :
    (∀ (i : Nat) (name : String) (sch : Option String) (enums : List String)
        (pbp rp : String → String),
      get_enum_values (.decoratedEnum i name sch enums pbp rp) =
        enums.map (fun value => pbp (rp value))) ∧
    (∀ (i : Nat) (name : String) (sch : Option String) (enums : List String),
      get_enum_values (.enumType i name sch enums) = enums) :=
  ⟨fun _ _ _ _ _ _ => rfl, fun _ _ _ _ => rfl⟩

/-! ## C1 — duplicate enum names are silently collapsed, not rejected -/

/-- C1 is false as stated: on a metadata declaring two enum types that
share the name `"status"` with conflicting value tuples `["a"]` and
`["b"]`, `get_declared_enums` raises no error and returns a mapping that
keeps only one of the conflicting tuples (the later-scanned one). -/
theorem c1_counterexample :
    (get_declared_enums mdDup "public" "public").enum_definitions =
      [("status", ["b"])] ∧
    (get_declared_enums mdDup "public" "public").table_definitions =
      some [⟨"t", "c1", "status"⟩, ⟨"t", "c2", "status"⟩] := by
  constructor <;> rfl

/-- C1 amended: `get_declared_enums` does not fail fast on duplicate enum
names with conflicting value sets; it always returns a mapping binding
each enum name to exactly one value tuple, and every returned tuple is the
value tuple of one of the scanned enum type objects (so one of the
conflicting definitions is kept and the others silently discarded). -/
theorem c1_amended_silent_overwrite :
    (∀ (md : MetaData) (s d : String),
      keysNodup (get_declared_enums md s d).enum_definitions) ∧
    (∀ (md : MetaData) (s d n : String) (vs : List String),
      dictLookup (get_declared_enums md s d).enum_definitions n = some vs →
      ∃ t, t ∈ (scanMetadata md s d).1 ∧ t.typeName = n ∧
        get_enum_values t = vs) := by
  constructor
  · intro md s d
    exact keysNodup_dictOf _
  · intro md s d n vs h
    have hm := dictLookup_dictOf_mem h
    obtain ⟨t, ht, heq⟩ := List.mem_map.mp hm
    have h1 : t.typeName = n ∧ get_enum_values t = vs := by
      constructor
      · exact congrArg Prod.fst heq
      · exact congrArg Prod.snd heq
    exact ⟨t, ht, h1.1, h1.2⟩

/-- Closed instance of `c1_amended_silent_overwrite` at the duplicate
metadata. -/
theorem c1_amended_witness :
    keysNodup (get_declared_enums mdDup "public" "public").enum_definitions ∧
    ∃ t, t ∈ (scanMetadata mdDup "public" "public").1 ∧
      t.typeName = "status" ∧ get_enum_values t = ["b"] :=
  ⟨c1_amended_silent_overwrite.1 mdDup "public" "public",
   c1_amended_silent_overwrite.2 mdDup "public" "public" "status" ["b"]
     (by rfl)⟩

/-! ## C2 — the live reader returns labels in physical, not ordinal, order -/

/-- C2: the embedded SQL of `get_defined_enums` reads the labels with no
`ORDER BY`, so they arrive in the physical row order of the catalog.  At
`catSample` (the state after `ALTER TYPE e ADD VALUE 'b' BEFORE 'c'`) the
reader returns `a, c, b` while the declared ordinal order is `a, b, c`. -/
theorem c2_order_bug :
    get_defined_enums catSample "public" = [("e", ["a", "c", "b"])] ∧
    ordinalLabels catSample 1 = ["a", "b", "c"] ∧
    (["a", "c", "b"] : List String) ≠ ["a", "b", "c"] :=
  ⟨rfl, rfl, by decide⟩

/-! ## C9 — the recreation pair violates the create/drop exclusion -/

/-- C9 is false as stated: for the enum `"status"` present on both sides
with value tuples `("a","b","c")` and `("a","c")`, one diff run emits both
a `DropEnum` and a `CreateEnum` for that same name (the recreation pair
mandated by the spec's own Scenario 4). -/
theorem c9_counterexample :
    ((enumDiff "public" [("status", ["a", "b", "c"])]
        [("status", ["a", "c"])]).any (fun op => op.isCreateNamed "status")
      = true) ∧
    ((enumDiff "public" [("status", ["a", "b", "c"])]
        [("status", ["a", "c"])]).any (fun op => op.isDropNamed "status")
      = true) := by
  constructor <;> rfl

/-! ## C7 — round-trip of forward and inverse sequences -/

/-- C7: applying the diff's forward sequence to the live snapshot and then
the generated inverse sequence (each operation inverted, in reverse order)
reproduces the live snapshot's enum mapping exactly, as a mapping; and
each operation carries enough information that `CreateEnum(name, schema,
values)` inverses to `DropEnum(name, schema, values)` and vice versa. -/
theorem c7_round_trip (sch : String) (live declared : EnumNamesToValues)
    (hndl : keysNodup live) (hndd : keysNodup declared) :
    (∀ k, dictLookup (applySeq (inverseSeq (enumDiff sch live declared))
        (applySeq (enumDiff sch live declared) live)) k = dictLookup live k) ∧
    (∀ (n s : String) (vs : List String),
      inverseOp (.createEnum n s vs) = .dropEnum n s vs ∧
      inverseOp (.dropEnum n s vs) = .createEnum n s vs) :=
  ⟨seqPre_roundTrip (enumDiff_seqPre hndl hndd), fun _ _ _ => ⟨rfl, rfl⟩⟩

/-- Closed instance of `c7_round_trip` at the sample snapshots. -/
theorem c7_round_trip_witness :
    dictLookup (applySeq (inverseSeq (enumDiff "public" liveSample declaredSample))
      (applySeq (enumDiff "public" liveSample declaredSample) liveSample))
      "user_status" = dictLookup liveSample "user_status" ∧
    inverseOp (.createEnum "new_enum" "public" ["x"]) =
      .dropEnum "new_enum" "public" ["x"] :=
  ⟨(c7_round_trip "public" liveSample declaredSample (by decide) (by decide)).1
     "user_status",
   ((c7_round_trip "public" liveSample declaredSample (by decide) (by decide)).2
     "new_enum" "public" ["x"]).1⟩

/-! ## C8 — value removal is handled by the recreation pair -/

/-- C8: for an enum present on both sides whose declared value set is a
strict subset of the live value set, the diff emits the structural
replacement for it — a `DropEnum` carrying the live values immediately
followed by a `CreateEnum` carrying the declared values (and no other
operation for that enum) — and no in-place value-drop operation appears
anywhere in the output. -/
theorem c8_subset_recreation (sch : String) (live declared : EnumNamesToValues)
    (n : String) (lv dv : List String) (hndl : keysNodup live)
    (hl : dictLookup live n = some lv) (hd : dictLookup declared n = some dv)
    (hsub : ∀ x ∈ dv, x ∈ lv) (hstrict : ∃ x, x ∈ lv ∧ x ∉ dv) :
    (∃ l1 l2, enumDiff sch live declared =
        l1 ++ EnumOp.dropEnum n sch lv :: EnumOp.createEnum n sch dv :: l2 ∧
      (∀ op ∈ l1, op.opName ≠ n) ∧ (∀ op ∈ l2, op.opName ≠ n)) ∧
    (∀ op ∈ enumDiff sch live declared, op.isAlterDropValue = false) := by
  obtain ⟨x, hxl, hxd⟩ := hstrict
  have hne : lv ≠ dv := fun he => hxd (he ▸ hxl)
  have hnsub : isSublist lv dv = false := by
    cases hc : isSublist lv dv
    · rfl
    · exact absurd (isSublist_mem hc x hxl) hxd
  obtain ⟨l1, l2, heq, hl1, hl2⟩ := changedOps_split sch hndl hl hd
  rw [changedEnumOps_recreate hne hnsub] at heq
  constructor
  · refine ⟨l1, l2 ++ createOps sch live declared ++ dropOps sch live declared,
      ?_, hl1, ?_⟩
    · unfold enumDiff
      rw [heq]
      simp [List.append_assoc]
    · intro op hop
      rcases List.mem_append.mp hop with hop | hop
      · rcases List.mem_append.mp hop with hop | hop
        · exact hl2 op hop
        · obtain ⟨p, _, hpn, rfl⟩ := createOps_shape hop
          intro hc
          rw [show (EnumOp.createEnum p.1 sch p.2).opName = p.1 from rfl] at hc
          rw [hc, hl] at hpn
          simp at hpn
      · obtain ⟨p, _, hpn, rfl⟩ := dropOps_shape hop
        intro hc
        rw [show (EnumOp.dropEnum p.1 sch p.2).opName = p.1 from rfl] at hc
        rw [hc, hd] at hpn
        simp at hpn
  · intro op hop
    unfold enumDiff at hop
    rcases List.mem_append.mp hop with hop | hop
    · rcases List.mem_append.mp hop with hop | hop
      · exact changedOps_not_alterDrop hop
      · obtain ⟨p, _, _, rfl⟩ := createOps_shape hop
        rfl
    · obtain ⟨p, _, _, rfl⟩ := dropOps_shape hop
      rfl

/-- Closed instance of `c8_subset_recreation` at the sample snapshots
(`"status"`: live `a,b,c`, declared `a,c`). -/
theorem c8_subset_recreation_witness :
    (∃ l1 l2, enumDiff "public" liveSample declaredSample =
        l1 ++ EnumOp.dropEnum "status" "public" ["a", "b", "c"] ::
          EnumOp.createEnum "status" "public" ["a", "c"] :: l2 ∧
      (∀ op ∈ l1, op.opName ≠ "status") ∧ (∀ op ∈ l2, op.opName ≠ "status")) ∧
    (∀ op ∈ enumDiff "public" liveSample declaredSample,
      op.isAlterDropValue = false) :=
  c8_subset_recreation "public" liveSample declaredSample "status"
    ["a", "b", "c"] ["a", "c"] (by decide) (by decide) (by decide)
    (by decide) (by decide)

/-! ## C9 — create/drop pairs appear only as the recreation pair -/

/-- C9 amended: for an enum present on both sides with differing value
tuples, the diff output contains both a `CreateEnum` and a `DropEnum` for
that name only when the change is not add-only (the live tuple is not an
order-preserving sublist of the declared tuple), and then exactly as the
single adjacent `DropEnum`-then-`CreateEnum` recreation pair; for an
add-only change neither a `CreateEnum` nor a `DropEnum` for that name
appears. -/
theorem c9_amended_recreation_pair_only (sch : String)
    (live declared : EnumNamesToValues) (n : String) (lv dv : List String)
    (hndl : keysNodup live) (hl : dictLookup live n = some lv)
    (hd : dictLookup declared n = some dv) (hne : lv ≠ dv) :
    (isSublist lv dv = true →
      ∀ op ∈ enumDiff sch live declared,
        op.isCreateNamed n = false ∧ op.isDropNamed n = false) ∧
    (isSublist lv dv = false →
      ∃ l1 l2, enumDiff sch live declared =
          l1 ++ EnumOp.dropEnum n sch lv :: EnumOp.createEnum n sch dv :: l2 ∧
        (∀ op ∈ l1 ++ l2,
          op.isCreateNamed n = false ∧ op.isDropNamed n = false)) := by
  constructor
  · intro hs op hop
    unfold enumDiff at hop
    rcases List.mem_append.mp hop with hop | hop
    · rcases List.mem_append.mp hop with hop | hop
      · obtain ⟨l1, l2, heq, hl1, hl2⟩ := changedOps_split sch hndl hl hd
        rw [heq] at hop
        rcases List.mem_append.mp hop with hop | hop
        · rcases List.mem_append.mp hop with hop | hop
          · exact ⟨isCreateNamed_false_of_opName_ne (hl1 op hop),
              isDropNamed_false_of_opName_ne (hl1 op hop)⟩
          · obtain ⟨v, p, rfl⟩ := changedEnumOps_addOnly hs hop
            exact ⟨rfl, rfl⟩
        · exact ⟨isCreateNamed_false_of_opName_ne (hl2 op hop),
            isDropNamed_false_of_opName_ne (hl2 op hop)⟩
      · obtain ⟨p, _, hpn, rfl⟩ := createOps_shape hop
        have hpne : (EnumOp.createEnum p.1 sch p.2).opName ≠ n := by
          intro hc
          rw [show (EnumOp.createEnum p.1 sch p.2).opName = p.1 from rfl] at hc
          rw [hc, hl] at hpn
          simp at hpn
        exact ⟨isCreateNamed_false_of_opName_ne hpne,
          isDropNamed_false_of_opName_ne hpne⟩
    · obtain ⟨p, _, hpn, rfl⟩ := dropOps_shape hop
      have hpne : (EnumOp.dropEnum p.1 sch p.2).opName ≠ n := by
        intro hc
        rw [show (EnumOp.dropEnum p.1 sch p.2).opName = p.1 from rfl] at hc
        rw [hc, hd] at hpn
        simp at hpn
      exact ⟨isCreateNamed_false_of_opName_ne hpne,
        isDropNamed_false_of_opName_ne hpne⟩
  · intro hnsub
    obtain ⟨l1, l2, heq, hl1, hl2⟩ := changedOps_split sch hndl hl hd
    rw [changedEnumOps_recreate hne hnsub] at heq
    refine ⟨l1, l2 ++ createOps sch live declared ++ dropOps sch live declared,
      ?_, ?_⟩
    · unfold enumDiff
      rw [heq]
      simp [List.append_assoc]
    · intro op hop
      have hne' : op.opName ≠ n := by
        rcases List.mem_append.mp hop with hop | hop
        · exact hl1 op hop
        · rcases List.mem_append.mp hop with hop | hop
          · rcases List.mem_append.mp hop with hop | hop
            · exact hl2 op hop
            · obtain ⟨p, _, hpn, rfl⟩ := createOps_shape hop
              intro hc
              rw [show (EnumOp.createEnum p.1 sch p.2).opName = p.1 from rfl]
                at hc
              rw [hc, hl] at hpn
              simp at hpn
          · obtain ⟨p, _, hpn, rfl⟩ := dropOps_shape hop
            intro hc
            rw [show (EnumOp.dropEnum p.1 sch p.2).opName = p.1 from rfl] at hc
            rw [hc, hd] at hpn
            simp at hpn
      exact ⟨isCreateNamed_false_of_opName_ne hne',
        isDropNamed_false_of_opName_ne hne'⟩

/-- Closed instance of `c9_amended_recreation_pair_only` at the sample
snapshots (`"status"`, a non-add-only change). -/
theorem c9_amended_witness :
    (isSublist ["a", "b", "c"] ["a", "c"] = true →
      ∀ op ∈ enumDiff "public" liveSample declaredSample,
        op.isCreateNamed "status" = false ∧ op.isDropNamed "status" = false) ∧
    (isSublist ["a", "b", "c"] ["a", "c"] = false →
      ∃ l1 l2, enumDiff "public" liveSample declaredSample =
          l1 ++ EnumOp.dropEnum "status" "public" ["a", "b", "c"] ::
            EnumOp.createEnum "status" "public" ["a", "c"] :: l2 ∧
        (∀ op ∈ l1 ++ l2,
          op.isCreateNamed "status" = false ∧
          op.isDropNamed "status" = false)) :=
  c9_amended_recreation_pair_only "public" liveSample declaredSample "status"
    ["a", "b", "c"] ["a", "c"] (by decide) (by decide) (by decide) (by decide)

/-! ## C5 — creates precede, drops follow, the column batch -/

/-- C5: for every declared enum `E` absent from the live schema, the
migration sequence contains exactly one `CreateEnum(E, schema,
declared[E])` — the decomposition below exhibits the unique occurrence —
positioned before every column operation referencing `E` (nothing before
it references `E`); and for every live enum `F` absent from the declared
schema, the sequence contains exactly one `DropEnum(F, schema, live[F])`
positioned after every column-drop operation referencing `F` (no
referencing column-drop follows it). -/
theorem c5_enum_ops_positioned (sch : String)
    (live declared : EnumNamesToValues) (cols : List ColumnOp)
    (hndl : keysNodup live) (hndd : keysNodup declared) :
    (∀ E dvs, dictLookup declared E = some dvs → dictLookup live E = none →
      ∃ l1 l2, reconcile sch live declared cols =
          l1 ++ MigrationOp.enumOp (.createEnum E sch dvs) :: l2 ∧
        (∀ op ∈ l1, op.isCreateNamed E = false ∧ op.refsColumn E = false) ∧
        (∀ op ∈ l2, op.isCreateNamed E = false)) ∧
    (∀ F lvs, dictLookup live F = some lvs → dictLookup declared F = none →
      ∃ l1 l2, reconcile sch live declared cols =
          l1 ++ MigrationOp.enumOp (.dropEnum F sch lvs) :: l2 ∧
        (∀ op ∈ l1, op.isDropNamed F = false) ∧
        (∀ op ∈ l2, op.isDropNamed F = false ∧ op.isColDropRef F = false)) := by
  constructor
  · intro E dvs hd hl
    obtain ⟨c1, c2, hcr, hc1, hc2⟩ := createOps_split sch hndd hd hl
    refine ⟨(changedOps sch live declared).map MigrationOp.enumOp ++
        c1.map MigrationOp.enumOp,
      c2.map MigrationOp.enumOp ++ cols.map MigrationOp.columnOp ++
        (dropOps sch live declared).map MigrationOp.enumOp, ?_, ?_, ?_⟩
    · unfold reconcile
      rw [hcr]
      simp [List.append_assoc]
    · intro op hop
      rcases List.mem_append.mp hop with hop | hop
      · obtain ⟨e, he, rfl⟩ := List.mem_map.mp hop
        refine ⟨?_, rfl⟩
        show e.isCreateNamed E = false
        apply isCreateNamed_false_of_opName_ne
        obtain ⟨h1, _⟩ := changedOps_opName he
        intro hc
        exact (dictLookup_eq_none_iff live E).mp hl (hc ▸ h1)
      · obtain ⟨e, he, rfl⟩ := List.mem_map.mp hop
        exact ⟨isCreateNamed_false_of_opName_ne (hc1 e he), rfl⟩
    · intro op hop
      rcases List.mem_append.mp hop with hop | hop
      · rcases List.mem_append.mp hop with hop | hop
        · obtain ⟨e, he, rfl⟩ := List.mem_map.mp hop
          exact isCreateNamed_false_of_opName_ne (hc2 e he)
        · obtain ⟨c, _, rfl⟩ := List.mem_map.mp hop
          rfl
      · obtain ⟨e, he, rfl⟩ := List.mem_map.mp hop
        obtain ⟨p, _, _, rfl⟩ := dropOps_shape he
        rfl
  · intro F lvs hl hd
    obtain ⟨d1, d2, hdr, hd1, hd2⟩ := dropOps_split sch hndl hl hd
    refine ⟨(changedOps sch live declared).map MigrationOp.enumOp ++
        (createOps sch live declared).map MigrationOp.enumOp ++
        cols.map MigrationOp.columnOp ++ d1.map MigrationOp.enumOp,
      d2.map MigrationOp.enumOp, ?_, ?_, ?_⟩
    · unfold reconcile
      rw [hdr]
      simp [List.append_assoc]
    · intro op hop
      rcases List.mem_append.mp hop with hop | hop
      · rcases List.mem_append.mp hop with hop | hop
        · rcases List.mem_append.mp hop with hop | hop
          · obtain ⟨e, he, rfl⟩ := List.mem_map.mp hop
            show e.isDropNamed F = false
            apply isDropNamed_false_of_opName_ne
            obtain ⟨_, h2⟩ := changedOps_opName he
            intro hc
            rw [hc, hd] at h2
            simp at h2
          · obtain ⟨e, he, rfl⟩ := List.mem_map.mp hop
            obtain ⟨p, _, _, rfl⟩ := createOps_shape he
            rfl
        · obtain ⟨c, _, rfl⟩ := List.mem_map.mp hop
          rfl
      · obtain ⟨e, he, rfl⟩ := List.mem_map.mp hop
        exact isDropNamed_false_of_opName_ne (hd1 e he)
    · intro op hop
      obtain ⟨e, he, rfl⟩ := List.mem_map.mp hop
      exact ⟨isDropNamed_false_of_opName_ne (hd2 e he), rfl⟩

/-- Closed instance of `c5_enum_ops_positioned` at the sample snapshots
with a sample column-operation batch. -/
theorem c5_enum_ops_positioned_witness :
    (∃ l1 l2, reconcile "public" liveSample declaredSample colOpsSample =
        l1 ++ MigrationOp.enumOp (.createEnum "new_enum" "public" ["x"]) :: l2 ∧
      (∀ op ∈ l1, op.isCreateNamed "new_enum" = false ∧
        op.refsColumn "new_enum" = false) ∧
      (∀ op ∈ l2, op.isCreateNamed "new_enum" = false)) ∧
    (∃ l1 l2, reconcile "public" liveSample declaredSample colOpsSample =
        l1 ++ MigrationOp.enumOp
          (.dropEnum "user_status" "public" ["active", "passive"]) :: l2 ∧
      (∀ op ∈ l1, op.isDropNamed "user_status" = false) ∧
      (∀ op ∈ l2, op.isDropNamed "user_status" = false ∧
        op.isColDropRef "user_status" = false)) :=
  ⟨(c5_enum_ops_positioned "public" liveSample declaredSample colOpsSample
      (by decide) (by decide)).1 "new_enum" ["x"] (by decide) (by decide),
   (c5_enum_ops_positioned "public" liveSample declaredSample colOpsSample
      (by decide) (by decide)).2 "user_status" ["active", "passive"]
     (by decide) (by decide)⟩

/-! ## The column scan of `get_declared_enums` -/

theorem scanColumn_noSchema {s d tn : String}
    {acc : List ColumnType × List EnumToTable} {c : Column}
    (h : c.type.hasSchemaAttr = false) : scanColumn s d tn acc c = acc := by
  unfold scanColumn
  rw [if_pos (show ¬(c.type.hasSchemaAttr = true) by simp [h])]

theorem scanColumn_skip_schema {s d tn : String}
    {acc : List ColumnType × List EnumToTable} {c : Column}
    (h1 : c.type.hasSchemaAttr = true)
    (h2 : s ≠ pyOrStr c.type.schemaAttr d) : scanColumn s d tn acc c = acc := by
  unfold scanColumn
  rw [if_neg (show ¬¬(c.type.hasSchemaAttr = true) by simp [h1]), if_pos h2]

theorem scanColumn_skip_nonenum {s d tn : String}
    {acc : List ColumnType × List EnumToTable} {c : Column}
    (h1 : c.type.hasSchemaAttr = true)
    (h2 : ¬s ≠ pyOrStr c.type.schemaAttr d)
    (h3 : (c.type.isEnum || c.type.implIsEnum) = false) :
    scanColumn s d tn acc c = acc := by
  unfold scanColumn
  rw [if_neg (show ¬¬(c.type.hasSchemaAttr = true) by simp [h1]), if_neg h2,
    if_neg (show ¬((c.type.isEnum || c.type.implIsEnum) = true) by simp [h3])]

theorem scanColumn_record {s d tn : String}
    {acc : List ColumnType × List EnumToTable} {c : Column}
    (h1 : c.type.hasSchemaAttr = true)
    (h2 : ¬s ≠ pyOrStr c.type.schemaAttr d)
    (h3 : (c.type.isEnum || c.type.implIsEnum) = true) :
    scanColumn s d tn acc c =
      (setAdd acc.1 c.type, acc.2 ++ [⟨tn, c.name, c.type.typeName⟩]) := by
  unfold scanColumn
  rw [if_neg (show ¬¬(c.type.hasSchemaAttr = true) by simp [h1]), if_neg h2,
    if_pos h3]

theorem scanPairs_filter (s d : String) :
    ∀ (pairs : List (String × Column))
      (acc : List ColumnType × List EnumToTable),
      pairs.foldl (fun a p => scanColumn s d p.1 a p.2) acc =
        (pairs.filter (fun p => p.2.type.hasSchemaAttr)).foldl
          (fun a p => scanColumn s d p.1 a p.2) acc := by
  intro pairs
  induction pairs with
  | nil => intro _; rfl
  | cons p rest ih =>
      intro acc
      by_cases h : p.2.type.hasSchemaAttr = true
      · rw [List.foldl_cons, ih, List.filter_cons, if_pos h, List.foldl_cons]
      · have hb : p.2.type.hasSchemaAttr = false := by
          cases hb : p.2.type.hasSchemaAttr
          · rfl
          · exact absurd hb h
        rw [List.foldl_cons, scanColumn_noSchema hb, ih, List.filter_cons,
          if_neg h]

theorem map_pair_filter (tn : String) (cols : List Column) :
    (cols.filter (fun c => c.type.hasSchemaAttr)).map (fun c => (tn, c)) =
      (cols.map (fun c => (tn, c))).filter
        (fun p => p.2.type.hasSchemaAttr) := by
  induction cols with
  | nil => rfl
  | cons c rest ih =>
      by_cases h : c.type.hasSchemaAttr = true
      · rw [List.filter_cons, if_pos h, List.map_cons, List.map_cons,
          List.filter_cons, if_pos h, ih]
      · rw [List.filter_cons, if_neg h, List.map_cons, List.filter_cons,
          if_neg h, ih]

theorem tableColumnPairs_drop (md : MetaData) :
    tableColumnPairs (dropNoSchemaColumns md) =
      (tableColumnPairs md).filter (fun p => p.2.type.hasSchemaAttr) := by
  obtain ⟨tables⟩ := md
  induction tables with
  | nil => rfl
  | cons t rest ih =>
      show (t.columns.filter (fun c => c.type.hasSchemaAttr)).map
          (fun c => (t.name, c)) ++
          tableColumnPairs (dropNoSchemaColumns ⟨rest⟩) =
        (t.columns.map (fun c => (t.name, c)) ++
          tableColumnPairs ⟨rest⟩).filter (fun p => p.2.type.hasSchemaAttr)
      rw [List.filter_append, map_pair_filter, ih]

theorem scanPairs_records (s d : String) :
    ∀ (pairs : List (String × Column))
      (acc : List ColumnType × List EnumToTable) (rec : EnumToTable),
      rec ∈ (pairs.foldl (fun a p => scanColumn s d p.1 a p.2) acc).2 →
      rec ∈ acc.2 ∨ ∃ tc, tc ∈ pairs ∧ rec.table_name = tc.1 ∧
        rec.column_name = tc.2.name ∧ rec.enum_name = tc.2.type.typeName ∧
        tc.2.type.hasSchemaAttr = true ∧
        pyOrStr tc.2.type.schemaAttr d = s ∧
        (tc.2.type.isEnum || tc.2.type.implIsEnum) = true := by
  intro pairs
  induction pairs with
  | nil => intro acc rec h; exact Or.inl h
  | cons p rest ih =>
      intro acc rec h
      rw [List.foldl_cons] at h
      by_cases h1 : p.2.type.hasSchemaAttr = true
      · by_cases h2 : s ≠ pyOrStr p.2.type.schemaAttr d
        · rw [scanColumn_skip_schema h1 h2] at h
          rcases ih acc rec h with h | ⟨tc, htc, hrest⟩
          · exact Or.inl h
          · exact Or.inr ⟨tc, List.mem_cons_of_mem _ htc, hrest⟩
        · by_cases h3 : (p.2.type.isEnum || p.2.type.implIsEnum) = true
          · rw [scanColumn_record h1 h2 h3] at h
            rcases ih _ rec h with h | ⟨tc, htc, hrest⟩
            · rcases List.mem_append.mp h with h | h
              · exact Or.inl h
              · have hrec : rec = (⟨p.1, p.2.name, p.2.type.typeName⟩ :
                    EnumToTable) := by simpa using h
                subst hrec
                exact Or.inr ⟨p, by simp, rfl, rfl, rfl, h1,
                  (not_ne_iff.mp h2).symm, h3⟩
            · exact Or.inr ⟨tc, List.mem_cons_of_mem _ htc, hrest⟩
          · have h3' : (p.2.type.isEnum || p.2.type.implIsEnum) = false := by
              cases hb : (p.2.type.isEnum || p.2.type.implIsEnum)
              · rfl
              · exact absurd hb h3
            rw [scanColumn_skip_nonenum h1 h2 h3'] at h
            rcases ih acc rec h with h | ⟨tc, htc, hrest⟩
            · exact Or.inl h
            · exact Or.inr ⟨tc, List.mem_cons_of_mem _ htc, hrest⟩
      · have hb : p.2.type.hasSchemaAttr = false := by
          cases hb : p.2.type.hasSchemaAttr
          · rfl
          · exact absurd hb h1
        rw [scanColumn_noSchema hb] at h
        rcases ih acc rec h with h | ⟨tc, htc, hrest⟩
        · exact Or.inl h
        · exact Or.inr ⟨tc, List.mem_cons_of_mem _ htc, hrest⟩

/-! ## C4 — schema attribution of scanned columns -/

/-- C4 is false as stated: the single column of `mdSchemaEmpty` has the
explicit schema attribute `""` (not `None`), so per the claim its resident
schema is `""`, which differs from the inspected schema `"public"` — yet
the column IS recorded as an enum usage, because the source evaluates
`column.type.schema or default_schema` with Python truthiness and the
empty string is falsy. -/
theorem c4_counterexample :
    residentSchemaSpec ((ColumnType.enumType 7 "e" (some "") ["x"]).schemaAttr)
        "public" ≠ "public" ∧
    (get_declared_enums mdSchemaEmpty "public" "public").table_definitions =
      some [⟨"t", "c", "e"⟩] :=
  ⟨by decide, rfl⟩

/-- C4 amended: a column whose type object lacks a `schema` attribute
contributes nothing to the result (removing all such columns leaves the
result unchanged); and a column is recorded as an enum usage only if its
resident schema — the explicit schema attribute when it is neither `None`
nor empty, otherwise the default schema (`pyOrStr`) — equals the schema
under inspection, so cross-schema references are never attributed to the
inspected schema. -/
theorem c4_amended_schema_attribution :
    (∀ (md : MetaData) (s d : String),
      get_declared_enums (dropNoSchemaColumns md) s d =
        get_declared_enums md s d) ∧
    (∀ (md : MetaData) (s d : String) (tds : List EnumToTable)
        (rec : EnumToTable),
      (get_declared_enums md s d).table_definitions = some tds → rec ∈ tds →
      ∃ tc, tc ∈ tableColumnPairs md ∧ rec.table_name = tc.1 ∧
        rec.column_name = tc.2.name ∧ rec.enum_name = tc.2.type.typeName ∧
        tc.2.type.hasSchemaAttr = true ∧
        pyOrStr tc.2.type.schemaAttr d = s ∧
        (tc.2.type.isEnum || tc.2.type.implIsEnum) = true) := by
  constructor
  · intro md s d
    unfold get_declared_enums scanMetadata
    rw [tableColumnPairs_drop, ← scanPairs_filter]
  · intro md s d tds rec htds hrec
    have htds' : tds = (scanMetadata md s d).2 := by
      have hh : (get_declared_enums md s d).table_definitions =
          some (scanMetadata md s d).2 := rfl
      rw [hh] at htds
      exact (Option.some.inj htds).symm
    rw [htds'] at hrec
    rcases scanPairs_records s d (tableColumnPairs md) ([], []) rec hrec with
      h | ⟨tc, htc, h1, h2, h3, h4, h5, h6⟩
    · simp at h
    · exact ⟨tc, htc, h1, h2, h3, h4, h5, h6⟩

/-- Closed instance of `c4_amended_schema_attribution` at `mdSample`. -/
theorem c4_amended_witness :
    get_declared_enums (dropNoSchemaColumns mdSample) "public" "public" =
      get_declared_enums mdSample "public" "public" ∧
    ∃ tc, tc ∈ tableColumnPairs mdSample ∧
      (⟨"users", "status", "user_status"⟩ : EnumToTable).table_name = tc.1 ∧
      (⟨"users", "status", "user_status"⟩ : EnumToTable).column_name =
        tc.2.name ∧
      (⟨"users", "status", "user_status"⟩ : EnumToTable).enum_name =
        tc.2.type.typeName ∧
      tc.2.type.hasSchemaAttr = true ∧
      pyOrStr tc.2.type.schemaAttr "public" = "public" ∧
      (tc.2.type.isEnum || tc.2.type.implIsEnum) = true :=
  ⟨c4_amended_schema_attribution.1 mdSample "public" "public",
   c4_amended_schema_attribution.2 mdSample "public" "public"
     [⟨"users", "status", "user_status"⟩] ⟨"users", "status", "user_status"⟩
     rfl (by simp)⟩

/-! ## C10 — internal consistency of the declared-schema snapshot -/

theorem mem_setAdd_of_mem {types : List ColumnType} {t x : ColumnType}
    (h : x ∈ types) : x ∈ setAdd types t := by
  unfold setAdd
  by_cases hc : types.any (fun u => u.typeId = t.typeId) = true
  · rwa [if_pos hc]
  · rw [if_neg hc]
    exact List.mem_append.mpr (Or.inl h)

theorem mem_setAdd {types : List ColumnType} {t x : ColumnType}
    (h : x ∈ setAdd types t) : x ∈ types ∨ x = t := by
  unfold setAdd at h
  by_cases hc : types.any (fun u => u.typeId = t.typeId) = true
  · rw [if_pos hc] at h
    exact Or.inl h
  · rw [if_neg hc] at h
    rcases List.mem_append.mp h with h | h
    · exact Or.inl h
    · exact Or.inr (by simpa using h)

theorem setAdd_reaches (types : List ColumnType) (t : ColumnType) :
    ∃ u, u ∈ setAdd types t ∧ u.typeId = t.typeId := by
  unfold setAdd
  by_cases hc : types.any (fun u => u.typeId = t.typeId) = true
  · rw [if_pos hc]
    obtain ⟨u, hu, he⟩ := List.any_eq_true.mp hc
    exact ⟨u, hu, by simpa using he⟩
  · rw [if_neg hc]
    exact ⟨t, List.mem_append.mpr (Or.inr (by simp)), rfl⟩

theorem scanPairs_types (s d : String) :
    ∀ (pairs : List (String × Column))
      (acc : List ColumnType × List EnumToTable),
      (∀ t u, (t ∈ acc.1 ∨ t ∈ pairs.map (fun p => p.2.type)) →
        (u ∈ acc.1 ∨ u ∈ pairs.map (fun p => p.2.type)) →
        t.typeId = u.typeId → t = u) →
      (∀ rec ∈ acc.2, ∃ t, t ∈ acc.1 ∧ rec.enum_name = t.typeName) →
      ∀ rec ∈ (pairs.foldl (fun a p => scanColumn s d p.1 a p.2) acc).2,
        ∃ t, t ∈ (pairs.foldl (fun a p => scanColumn s d p.1 a p.2) acc).1 ∧
          rec.enum_name = t.typeName := by
  intro pairs
  induction pairs with
  | nil => intro acc _ hacc rec h; exact hacc rec h
  | cons p rest ih =>
      intro acc hinj hacc rec h
      rw [List.foldl_cons] at h ⊢
      have hsub : (scanColumn s d p.1 acc p.2).1 = acc.1 ∨
          (scanColumn s d p.1 acc p.2).1 = setAdd acc.1 p.2.type := by
        by_cases h1 : p.2.type.hasSchemaAttr = true
        · by_cases h2 : s ≠ pyOrStr p.2.type.schemaAttr d
          · rw [scanColumn_skip_schema h1 h2]
            exact Or.inl rfl
          · by_cases h3 : (p.2.type.isEnum || p.2.type.implIsEnum) = true
            · rw [scanColumn_record h1 h2 h3]
              exact Or.inr rfl
            · rw [scanColumn_skip_nonenum h1 h2 (by
                cases hb : (p.2.type.isEnum || p.2.type.implIsEnum)
                · rfl
                · exact absurd hb h3)]
              exact Or.inl rfl
        · rw [scanColumn_noSchema (by
            cases hb : p.2.type.hasSchemaAttr
            · rfl
            · exact absurd hb h1)]
          exact Or.inl rfl
      have hinj' : ∀ t u,
          (t ∈ (scanColumn s d p.1 acc p.2).1 ∨
            t ∈ rest.map (fun p => p.2.type)) →
          (u ∈ (scanColumn s d p.1 acc p.2).1 ∨
            u ∈ rest.map (fun p => p.2.type)) →
          t.typeId = u.typeId → t = u := by
        intro t u ht hu
        apply hinj t u
        · rcases ht with ht | ht
          · rcases hsub with hs | hs
            · exact Or.inl (hs ▸ ht)
            · rw [hs] at ht
              rcases mem_setAdd ht with ht | rfl
              · exact Or.inl ht
              · exact Or.inr (by simp)
          · exact Or.inr (by simp [ht])
        · rcases hu with hu | hu
          · rcases hsub with hs | hs
            · exact Or.inl (hs ▸ hu)
            · rw [hs] at hu
              rcases mem_setAdd hu with hu | rfl
              · exact Or.inl hu
              · exact Or.inr (by simp)
          · exact Or.inr (by simp [hu])
      have hacc' : ∀ r ∈ (scanColumn s d p.1 acc p.2).2,
          ∃ t, t ∈ (scanColumn s d p.1 acc p.2).1 ∧
            r.enum_name = t.typeName := by
        intro r hr
        by_cases h1 : p.2.type.hasSchemaAttr = true
        · by_cases h2 : s ≠ pyOrStr p.2.type.schemaAttr d
          · rw [scanColumn_skip_schema h1 h2] at hr ⊢
            exact hacc r hr
          · by_cases h3 : (p.2.type.isEnum || p.2.type.implIsEnum) = true
            · rw [scanColumn_record h1 h2 h3] at hr ⊢
              rcases List.mem_append.mp hr with hr | hr
              · obtain ⟨t, ht, hn⟩ := hacc r hr
                exact ⟨t, mem_setAdd_of_mem ht, hn⟩
              · have hrec : r = (⟨p.1, p.2.name, p.2.type.typeName⟩ :
                    EnumToTable) := by simpa using hr
                subst hrec
                obtain ⟨u, hu, hid⟩ := setAdd_reaches acc.1 p.2.type
                refine ⟨u, hu, ?_⟩
                have : u = p.2.type := by
                  apply hinj u p.2.type
                  · rcases mem_setAdd hu with hu' | rfl
                    · exact Or.inl hu'
                    · exact Or.inr (by simp)
                  · exact Or.inr (by simp)
                  · exact hid
                rw [this]
            · rw [scanColumn_skip_nonenum h1 h2 (by
                cases hb : (p.2.type.isEnum || p.2.type.implIsEnum)
                · rfl
                · exact absurd hb h3)] at hr ⊢
              exact hacc r hr
        · rw [scanColumn_noSchema (by
            cases hb : p.2.type.hasSchemaAttr
            · rfl
            · exact absurd hb h1)] at hr ⊢
          exact hacc r hr
      exact ih (scanColumn s d p.1 acc p.2) hinj' hacc' rec h

/-- C10: for every metadata, schema, default schema (and dialect, which the
embedding pre-applies) such that column type objects have distinct
identities (as distinct Python objects do), the `DeclaredEnumValues`
returned by `get_declared_enums` is internally consistent: every
`EnumToTable` record in `table_definitions` has an `enum_name` that is a
key of the returned `enum_definitions` mapping. -/
theorem c10_table_defs_consistent (md : MetaData) (s d : String)
    (hinj : ∀ t u, t ∈ allColumnTypes md → u ∈ allColumnTypes md →
      t.typeId = u.typeId → t = u)
    (tds : List EnumToTable)
    (htds : (get_declared_enums md s d).table_definitions = some tds) :
    ∀ rec ∈ tds, rec.enum_name ∈
      (get_declared_enums md s d).enum_definitions.map Prod.fst := by
  intro rec hrec
  have htds' : tds = (scanMetadata md s d).2 := by
    have hh : (get_declared_enums md s d).table_definitions =
        some (scanMetadata md s d).2 := rfl
    rw [hh] at htds
    exact (Option.some.inj htds).symm
  rw [htds'] at hrec
  obtain ⟨t, htmem, hname⟩ := scanPairs_types s d (tableColumnPairs md)
    ([], [])
    (by
      intro t u ht hu
      exact hinj t u (ht.resolve_left (by simp)) (hu.resolve_left (by simp)))
    (by intro r hr; simp at hr)
    rec hrec
  rw [hname]
  have hkey : (get_declared_enums md s d).enum_definitions =
      dictOf ((scanMetadata md s d).1.map
        (fun t => (t.typeName, get_enum_values t))) := rfl
  rw [hkey]
  apply mem_keys_dictOf
  exact List.mem_map.mpr ⟨(t.typeName, get_enum_values t),
    List.mem_map.mpr ⟨t, htmem, rfl⟩, rfl⟩

/-- Closed instance of `c10_table_defs_consistent` at `mdSample`. -/
theorem c10_witness :
    "user_status" ∈
      (get_declared_enums mdSample "public" "public").enum_definitions.map
        Prod.fst :=
  c10_table_defs_consistent mdSample "public" "public"
    (by
      intro t u ht hu _
      have he : allColumnTypes mdSample =
          [ColumnType.enumType 1 "user_status" none ["active", "passive"]] :=
        rfl
      rw [he] at ht hu
      rw [List.mem_singleton.mp ht, List.mem_singleton.mp hu])
    [⟨"users", "status", "user_status"⟩] rfl
    ⟨"users", "status", "user_status"⟩ (by simp)

end AlembicEnum
